import Mathlib

/-!
# Step-timing generator of `src/main.cpp`

A shallow embedding of `SimpleSequenceWrapper` (the step-pulse timing generator)
together with the data types it works on.

Machine integers are modelled by `Nat` (unsigned) and `Int` (signed) with an
explicit reduction at every store:

* `uint32_t` / `microseconds_u32` : `Nat`, reduced modulo `2^32`;
* `uint16_t`                      : `Nat`, reduced modulo `2^16`;
* `int` / `int32_t`               : `Int`, reduced to `[-2^31, 2^31)`;
* `int16_t`                       : `Int`, reduced to `[-2^15, 2^15)`.

Signed overflow (`steps_to_go -= pos.current`, `-steps_to_go`) is modelled as
two's-complement wrap-around, which is what the target (ARM, GCC) produces and
what the comment on `position_t` ("serial number arithmetic") relies on.
-/

namespace StepGen

/-! ## Machine integer conversions -/

/-- Conversion of an integer value to `uint32_t`. -/
def toUInt32 (n : Int) : Nat := (n % 4294967296).toNat

/-- Conversion of an integer value to `uint16_t`. -/
def toUInt16 (n : Int) : Nat := (n % 65536).toNat

/-- Conversion of an integer value to `int32_t` (two's complement). -/
def toInt32 (n : Int) : Int := (n + 2147483648) % 4294967296 - 2147483648

/-- Conversion of an integer value to `int16_t` (two's complement). -/
def toInt16 (n : Int) : Int := (n + 32768) % 65536 - 32768

/-! ## Data model (`main.cpp` lines 20-74) -/

/-- Move direction (`enum MoveDirection : int8_t`, lines 23-30). -/
inductive MoveDirection where
  | DIR_FORWARD
  | DIR_NONE
  | DIR_BACKWARD
  deriving DecidableEq, Repr

/-- Current step instruction (`struct step_instruction_t`, lines 35-53):
the movement of the current step and the delay before the next step in
microseconds (`microseconds_u32`). -/
structure step_instruction_t where
  dir : MoveDirection
  next : Nat
  deriving DecidableEq, Repr

/-- Stepper motor position (`struct position_t`, lines 60-72). -/
structure position_t where
  current : Int
  target : Int
  deriving DecidableEq, Repr

/-- The sample source `T _sequence_callback` (a zero-argument callable that
returns `int`).  A deterministic callable is a stream of results indexed by
the number of invocations made so far; `calls` counts the invocations. -/
structure Callback where
  samples : Nat → Int
  calls : Nat

/-- One invocation `_sequence_callback()`: the returned `int` and the callable
after the invocation. -/
def Callback.call (c : Callback) : Int × Callback :=
  (toInt32 (c.samples c.calls), { c with calls := c.calls + 1 })

/-- The members of `SimpleSequenceWrapper<T>` (lines 89-96). -/
structure SimpleSequenceWrapper where
  _sequence_callback : Callback
  _seqeunce_interval_us : Nat
  _step_instruction : step_instruction_t
  _step_count : Nat
  _step_adjustment_count : Int
  _steps_to_go_abs : Int

namespace SimpleSequenceWrapper

/-- Constructor `SimpleSequenceWrapper(T, microseconds_u32)` (lines 105-112).
`_step_instruction` is not initialised by the constructor, so its indeterminate
initial content is a parameter. -/
def construct (sequence_callback : Callback) (interval : Nat)
    (indeterminate : step_instruction_t) : SimpleSequenceWrapper :=
  { _sequence_callback := sequence_callback
    _seqeunce_interval_us := interval % 4294967296
    _step_instruction := indeterminate
    _step_count := 0
    _step_adjustment_count := 0
    _steps_to_go_abs := 0 }

/-- Body of `if (_step_count == 0) { ... }` in `next` (lines 126-151): pull a
sample, compute the distance to go and set up the instruction and counters. -/
def sample (self : SimpleSequenceWrapper) (pos : position_t) : SimpleSequenceWrapper :=
  let r := self._sequence_callback.call
  -- steps_to_go = _sequence_callback(); steps_to_go -= pos.current;
  let steps_to_go : Int := toInt32 (r.1 - pos.current)
  if steps_to_go = 0 then
    { self with
      _sequence_callback := r.2
      _step_instruction := ⟨MoveDirection.DIR_NONE, self._seqeunce_interval_us⟩
      _step_count := 1
      _steps_to_go_abs := steps_to_go }
  else
    let dir := if steps_to_go > 0 then MoveDirection.DIR_FORWARD else MoveDirection.DIR_BACKWARD
    -- steps_to_go = -steps_to_go; (only in the backward branch)
    let steps_to_go : Int := if steps_to_go > 0 then steps_to_go else toInt32 (-steps_to_go)
    -- _seqeunce_interval_us / steps_to_go : unsigned 32-bit division
    let q : Nat := self._seqeunce_interval_us / toUInt32 steps_to_go
    if self._steps_to_go_abs > steps_to_go then
      { self with
        _sequence_callback := r.2
        _step_instruction := ⟨dir, q⟩
        _step_count := toUInt16 steps_to_go
        _step_adjustment_count := toInt16 (toInt16 (-(toInt16 q)) - 1)
        _steps_to_go_abs := steps_to_go }
    else
      { self with
        _sequence_callback := r.2
        _step_instruction := ⟨dir, (q + 1) % 4294967296⟩
        _step_count := toUInt16 steps_to_go
        _step_adjustment_count := toInt16 (toInt16 q + 1)
        _steps_to_go_abs := steps_to_go }

/-- Tail of `next` (lines 154-167): count the step and nudge the adjustment
counter one unit toward zero, changing the delay by one microsecond when the
counter reaches zero. -/
def adjust (self : SimpleSequenceWrapper) : SimpleSequenceWrapper :=
  -- _step_count -= 1;
  let s := { self with _step_count := toUInt16 ((self._step_count : Int) - 1) }
  if s._step_adjustment_count ≠ 0 then
    if s._step_adjustment_count > 0 then
      let a := toInt16 (s._step_adjustment_count - 1)
      if a = 0 then
        { s with
          _step_adjustment_count := a
          _step_instruction :=
            ⟨s._step_instruction.dir, toUInt32 ((s._step_instruction.next : Int) - 1)⟩ }
      else
        { s with _step_adjustment_count := a }
    else
      let a := toInt16 (s._step_adjustment_count + 1)
      if a = 0 then
        { s with
          _step_adjustment_count := a
          _step_instruction :=
            ⟨s._step_instruction.dir, toUInt32 ((s._step_instruction.next : Int) + 1)⟩ }
      else
        { s with _step_adjustment_count := a }
  else
    s

/-- Get next step instruction (`next`, lines 121-170): the returned instruction
and the generator after the call. -/
def next (self : SimpleSequenceWrapper) (pos : position_t) :
    step_instruction_t × SimpleSequenceWrapper :=
  let s := if self._step_count = 0 then self.sample pos else self
  let s := s.adjust
  (s._step_instruction, s)

end SimpleSequenceWrapper

open MoveDirection

/-! ## Driving the generator -/

/-- The caller's loop: one call of `next` per supplied position; the returned
instructions in order, and the generator afterwards. -/
def runCalls : SimpleSequenceWrapper → List position_t →
    List step_instruction_t × SimpleSequenceWrapper
  | s, [] => ([], s)
  | s, p :: ps => ((s.next p).1 :: (runCalls (s.next p).2 ps).1, (runCalls (s.next p).2 ps).2)

/-- Every call of the run is entered with `_step_count != 0`, that is, none of
the calls pulls a sample. -/
def allDraining : SimpleSequenceWrapper → List position_t → Bool
  | _, [] => true
  | s, p :: ps => s._step_count != 0 && allDraining (s.next p).2 ps

/-- The calls `ps` starting in state `s` lie within one sampling interval: the
first call is entered with `_step_count = 0` and no later call pulls a sample. -/
def withinInterval : SimpleSequenceWrapper → List position_t → Bool
  | _, [] => false
  | s, p :: ps => s._step_count == 0 && allDraining (s.next p).2 ps

/-- The calls `ps` starting in state `s` are exactly one sampling interval: they
lie within one interval and the call after them would pull a new sample. -/
def isSamplingInterval (s : SimpleSequenceWrapper) (ps : List position_t) : Bool :=
  withinInterval s ps && (runCalls s ps).2._step_count == 0

/-- The delays (microseconds) returned by a run of calls. -/
def delaysOf (s : SimpleSequenceWrapper) (ps : List position_t) : List Nat :=
  (runCalls s ps).1.map (fun i => i.next)

/-- The directions returned by a run of calls. -/
def dirsOf (s : SimpleSequenceWrapper) (ps : List position_t) : List MoveDirection :=
  (runCalls s ps).1.map (fun i => i.dir)

/-- A source that returns the same target on every invocation. -/
def constSource (v : Int) : Callback := { samples := fun _ => v, calls := 0 }

/-- A source that returns the listed targets in order (and `0` afterwards). -/
def listSource (vs : List Int) : Callback := { samples := fun i => vs.getD i 0, calls := 0 }

/-- A freshly constructed generator over the given source and interval. -/
def fresh (c : Callback) (interval : Nat) : SimpleSequenceWrapper :=
  SimpleSequenceWrapper.construct c interval ⟨DIR_NONE, 0⟩

/-- The target the source returns on its next invocation. -/
def sampledTarget (s : SimpleSequenceWrapper) : Int := s._sequence_callback.call.1

/-- The wrapped 32-bit difference `sampled target - pos.current` that a sampling
call entered in state `s` with position `p` computes (lines 126-127). -/
def deltaOf (s : SimpleSequenceWrapper) (p : position_t) : Int :=
  toInt32 (sampledTarget s - p.current)

/-- The members of the generator hold values of their C++ types. -/
structure WF (s : SimpleSequenceWrapper) : Prop where
  interval_lt : s._seqeunce_interval_us < 4294967296
  delay_lt : s._step_instruction.next < 4294967296
  count_lt : s._step_count < 65536
  adj_ge : -32768 ≤ s._step_adjustment_count
  adj_le : s._step_adjustment_count ≤ 32767
  abs_ge : -2147483648 ≤ s._steps_to_go_abs
  abs_lt : s._steps_to_go_abs < 2147483648

/-- Number of positions of a list at which two consecutive entries differ. -/
def transitions : List Nat → Nat
  | a :: b :: l => (if a = b then 0 else 1) + transitions (b :: l)
  | _ => 0

/-- The delay after the adjustment counter `a` has reached zero, starting from
the delay `v`: one microsecond less for a positive counter, one more for a
negative one (32-bit unsigned arithmetic). -/
def flipDelay (a : Int) (v : Nat) : Nat :=
  if a > 0 then toUInt32 ((v : Int) - 1) else toUInt32 ((v : Int) + 1)

/-- Closed form of the delays returned by `n` consecutive executions of the tail
of `next` that start with adjustment counter `a` and delay `v`. -/
def nudgedDelays (a : Int) (v : Nat) (n : Nat) : List Nat :=
  if a = 0 then List.replicate n v
  else List.replicate (min n (a.natAbs - 1)) v ++
    List.replicate (n - (a.natAbs - 1)) (flipDelay a v)

/-- Value of `steps_to_go` after lines 134-139 for a nonzero wrapped difference
`d`: `d` itself when positive, else the 32-bit negation of `d`. -/
def stepsToGo (d : Int) : Int := if d > 0 then d else toInt32 (-d)

/-! ## Division with an explicit divisor check -/

/-- Unsigned division as the machine performs it: no result for a zero
divisor. -/
def checkedDiv (a b : Nat) : Option Nat := if b = 0 then none else some (a / b)

/-- The sampling part of `next` (lines 126-151) with the two divisions of lines
141 and 142 checked: no result when one of them has a zero divisor. -/
def sampleChecked (self : SimpleSequenceWrapper) (pos : position_t) :
    Option SimpleSequenceWrapper :=
  let r := self._sequence_callback.call
  let steps_to_go : Int := toInt32 (r.1 - pos.current)
  if steps_to_go = 0 then
    some { self with
      _sequence_callback := r.2
      _step_instruction := ⟨MoveDirection.DIR_NONE, self._seqeunce_interval_us⟩
      _step_count := 1
      _steps_to_go_abs := steps_to_go }
  else
    let dir := if steps_to_go > 0 then MoveDirection.DIR_FORWARD else MoveDirection.DIR_BACKWARD
    let steps_to_go : Int := if steps_to_go > 0 then steps_to_go else toInt32 (-steps_to_go)
    -- line 141: _seqeunce_interval_us / steps_to_go
    match checkedDiv self._seqeunce_interval_us (toUInt32 steps_to_go) with
    | none => none
    | some q1 =>
      -- line 142: _seqeunce_interval_us / steps_to_go
      match checkedDiv self._seqeunce_interval_us (toUInt32 steps_to_go) with
      | none => none
      | some q2 =>
        if self._steps_to_go_abs > steps_to_go then
          some { self with
            _sequence_callback := r.2
            _step_instruction := ⟨dir, q1⟩
            _step_count := toUInt16 steps_to_go
            _step_adjustment_count := toInt16 (toInt16 (-(toInt16 q2)) - 1)
            _steps_to_go_abs := steps_to_go }
        else
          some { self with
            _sequence_callback := r.2
            _step_instruction := ⟨dir, (q1 + 1) % 4294967296⟩
            _step_count := toUInt16 steps_to_go
            _step_adjustment_count := toInt16 (toInt16 q2 + 1)
            _steps_to_go_abs := steps_to_go }

/-- The function `next` (lines 121-170) with checked divisions. -/
def nextChecked (self : SimpleSequenceWrapper) (pos : position_t) :
    Option (step_instruction_t × SimpleSequenceWrapper) :=
  if self._step_count = 0 then
    match sampleChecked self pos with
    | none => none
    | some s => some (s.adjust._step_instruction, s.adjust)
  else
    some (self.adjust._step_instruction, self.adjust)

/-- The divisors of the divisions that one call of `next` executes, in order:
none in a draining call and none in the branch `steps_to_go == 0`; the value of
`steps_to_go` as `unsigned` for line 141 and again for line 142 otherwise. -/
def divisorsOf (self : SimpleSequenceWrapper) (pos : position_t) : List Nat :=
  if self._step_count = 0 then
    let r := self._sequence_callback.call
    let steps_to_go : Int := toInt32 (r.1 - pos.current)
    if steps_to_go = 0 then []
    else
      let steps_to_go : Int := if steps_to_go > 0 then steps_to_go else toInt32 (-steps_to_go)
      [toUInt32 steps_to_go, toUInt32 steps_to_go]
  else []

/-- The generator reached from a constructed one by a run of calls. -/
def reached (c : Callback) (interval : Nat) (ind : step_instruction_t)
    (ps : List position_t) : SimpleSequenceWrapper :=
  (runCalls (SimpleSequenceWrapper.construct c interval ind) ps).2

/-- Invariant of the generator between calls: the interval, the step counter
and the adjustment counter hold values of their C++ types, and while steps of
an interval remain the delay is a 32-bit value whose pending one-microsecond
change cannot wrap around. -/
structure Inv (s : SimpleSequenceWrapper) : Prop where
  interval_lt : s._seqeunce_interval_us < 4294967296
  count_lt : s._step_count < 65536
  adj_ge : -32768 ≤ s._step_adjustment_count
  adj_le : s._step_adjustment_count ≤ 32767
  delay_lt : s._step_count ≠ 0 → s._step_instruction.next < 4294967296
  room_down : s._step_count ≠ 0 → s._step_adjustment_count > 0 → 1 ≤ s._step_instruction.next
  room_up : s._step_count ≠ 0 → s._step_adjustment_count < 0 →
    s._step_instruction.next + 1 < 4294967296

/-! ## Basic facts about `adjust`, `sample` and `next` -/

open SimpleSequenceWrapper

theorem adjust_callback (s : SimpleSequenceWrapper) :
    s.adjust._sequence_callback = s._sequence_callback := by
  unfold adjust; simp only; split_ifs <;> rfl

theorem adjust_interval (s : SimpleSequenceWrapper) :
    s.adjust._seqeunce_interval_us = s._seqeunce_interval_us := by
  unfold adjust; simp only; split_ifs <;> rfl

theorem adjust_dir (s : SimpleSequenceWrapper) :
    s.adjust._step_instruction.dir = s._step_instruction.dir := by
  unfold adjust; simp only; split_ifs <;> rfl

theorem adjust_abs (s : SimpleSequenceWrapper) :
    s.adjust._steps_to_go_abs = s._steps_to_go_abs := by
  unfold adjust; simp only; split_ifs <;> rfl

theorem adjust_count (s : SimpleSequenceWrapper) :
    s.adjust._step_count = toUInt16 ((s._step_count : Int) - 1) := by
  unfold adjust; simp only; split_ifs <;> rfl

/-- The counter after the tail of `next`: one unit closer to zero. -/
theorem adjust_adj (s : SimpleSequenceWrapper)
    (hlo : -32768 ≤ s._step_adjustment_count) (hhi : s._step_adjustment_count ≤ 32767) :
    s.adjust._step_adjustment_count =
      if s._step_adjustment_count > 0 then s._step_adjustment_count - 1
      else if s._step_adjustment_count < 0 then s._step_adjustment_count + 1 else 0 := by
  unfold adjust; simp only [toInt16]; split_ifs <;> simp only <;> omega

/-- The delay after the tail of `next`: changed exactly when the counter was
`1` or `-1` on entry. -/
theorem adjust_delay (s : SimpleSequenceWrapper)
    (hlo : -32768 ≤ s._step_adjustment_count) (hhi : s._step_adjustment_count ≤ 32767) :
    s.adjust._step_instruction.next =
      if s._step_adjustment_count = 1 ∨ s._step_adjustment_count = -1
      then flipDelay s._step_adjustment_count s._step_instruction.next
      else s._step_instruction.next := by
  unfold adjust flipDelay; simp only [toInt16]; split_ifs <;> first | rfl | omega

theorem next_sampling (s : SimpleSequenceWrapper) (p : position_t) (h : s._step_count = 0) :
    s.next p = ((s.sample p).adjust._step_instruction, (s.sample p).adjust) := by
  simp [SimpleSequenceWrapper.next, h]

theorem next_draining (s : SimpleSequenceWrapper) (p : position_t) (h : s._step_count ≠ 0) :
    s.next p = (s.adjust._step_instruction, s.adjust) := by
  simp [SimpleSequenceWrapper.next, h]

/-! ## Draining calls -/

/-- One more execution of the tail prepends one delay to the closed form. -/
theorem nudgedDelays_succ (a : Int) (v n : Nat) :
    nudgedDelays a v (n + 1) =
      (if a = 1 ∨ a = -1 then flipDelay a v else v) ::
        nudgedDelays (if a > 0 then a - 1 else if a < 0 then a + 1 else 0)
          (if a = 1 ∨ a = -1 then flipDelay a v else v) n := by
  rcases lt_trichotomy a 0 with h | h | h
  · by_cases h1 : a = -1
    · subst h1
      simp [nudgedDelays, List.replicate_succ]
    · have hk : ∃ m : Nat, a.natAbs - 1 = m + 1 ∧ (a + 1).natAbs - 1 = m := ⟨a.natAbs - 2, by omega, by omega⟩
      obtain ⟨m, hm1, hm2⟩ := hk
      have hf : flipDelay (a + 1) v = flipDelay a v := by
        unfold flipDelay; rw [if_neg (by omega), if_neg (by omega)]
      have e1 : ¬ (a = 1 ∨ a = -1) := by omega
      have e2 : ¬ (a > 0) := by omega
      have e3 : ¬ (a + 1 = 0) := by omega
      have e4 : ¬ (a = 0) := by omega
      simp only [nudgedDelays, if_neg e1, if_neg e2, if_pos h, if_neg e3, if_neg e4, hm1, hm2, hf,
        Nat.add_sub_add_right, Nat.add_min_add_right, List.replicate_succ, List.cons_append]
  · subst h
    simp [nudgedDelays, List.replicate_succ]
  · by_cases h1 : a = 1
    · subst h1
      simp [nudgedDelays, List.replicate_succ]
    · have hk : ∃ m : Nat, a.natAbs - 1 = m + 1 ∧ (a - 1).natAbs - 1 = m := ⟨a.natAbs - 2, by omega, by omega⟩
      obtain ⟨m, hm1, hm2⟩ := hk
      have hf : flipDelay (a - 1) v = flipDelay a v := by
        unfold flipDelay; rw [if_pos (by omega), if_pos (by omega)]
      have e1 : ¬ (a = 1 ∨ a = -1) := by omega
      have e3 : ¬ (a - 1 = 0) := by omega
      have e4 : ¬ (a = 0) := by omega
      simp only [nudgedDelays, if_neg e1, if_pos h, if_neg e3, if_neg e4, hm1, hm2, hf,
        Nat.add_sub_add_right, Nat.add_min_add_right, List.replicate_succ, List.cons_append]

/-- The first delay of a run and the delays of the rest. -/
theorem delaysOf_cons (s : SimpleSequenceWrapper) (p : position_t) (ps : List position_t) :
    delaysOf s (p :: ps) = (s.next p).1.next :: delaysOf (s.next p).2 ps := by
  simp [delaysOf, runCalls]

/-- While the steps of an interval are drained, the step counter counts down:
a run of calls pulls no sample exactly when it is no longer than the counter. -/
theorem allDraining_iff : ∀ (ps : List position_t) (s : SimpleSequenceWrapper),
    s._step_count < 65536 → (allDraining s ps = true ↔ ps.length ≤ s._step_count)
  | [], s, _ => by simp [allDraining]
  | p :: ps, s, h => by
    by_cases h0 : s._step_count = 0
    · simp [allDraining, h0]
    · have hc : s.adjust._step_count = s._step_count - 1 := by
        rw [adjust_count]; unfold toUInt16; omega
      have ih := allDraining_iff ps s.adjust (by omega)
      simp only [allDraining, next_draining s p h0, Bool.and_eq_true, bne_iff_ne, ne_eq, h0,
        not_false_eq_true, true_and, ih, List.length_cons, hc]
      omega

/-- The step counter after a run of draining calls. -/
theorem runCalls_count : ∀ (ps : List position_t) (s : SimpleSequenceWrapper),
    s._step_count < 65536 → allDraining s ps = true →
    (runCalls s ps).2._step_count = s._step_count - ps.length
  | [], s, _, _ => by simp [runCalls]
  | p :: ps, s, h, hd => by
    have h0 : s._step_count ≠ 0 := by
      intro h0; simp [allDraining, h0] at hd
    have hc : s.adjust._step_count = s._step_count - 1 := by
      rw [adjust_count]; unfold toUInt16; omega
    have hd2 : allDraining s.adjust ps = true := by
      simpa [allDraining, next_draining s p h0, h0] using hd
    have ih := runCalls_count ps s.adjust (by omega) hd2
    simp only [runCalls, next_draining s p h0, ih, hc, List.length_cons]
    omega

/-- The delays returned by a run of draining calls follow the closed form. -/
theorem delaysOf_draining : ∀ (ps : List position_t) (s : SimpleSequenceWrapper),
    -32768 ≤ s._step_adjustment_count → s._step_adjustment_count ≤ 32767 →
    allDraining s ps = true →
    delaysOf s ps = nudgedDelays s._step_adjustment_count s._step_instruction.next ps.length
  | [], s, _, _, _ => by simp [delaysOf, runCalls, nudgedDelays]
  | p :: ps, s, hlo, hhi, hd => by
    have h0 : s._step_count ≠ 0 := by
      intro h0; simp [allDraining, h0] at hd
    have hd2 : allDraining s.adjust ps = true := by
      simpa [allDraining, next_draining s p h0, h0] using hd
    have ha := adjust_adj s hlo hhi
    have ih := delaysOf_draining ps s.adjust (by rw [ha]; split_ifs <;> omega)
      (by rw [ha]; split_ifs <;> omega) hd2
    rw [delaysOf_cons, next_draining s p h0, ih, List.length_cons, nudgedDelays_succ,
      adjust_delay s hlo hhi, ha]

/-- The directions returned by a run of draining calls are the stored one. -/
theorem dirs_draining : ∀ (ps : List position_t) (s : SimpleSequenceWrapper),
    allDraining s ps = true →
    ∀ i ∈ (runCalls s ps).1, i.dir = s._step_instruction.dir
  | [], s, _ => by simp [runCalls]
  | p :: ps, s, hd => by
    have h0 : s._step_count ≠ 0 := by
      intro h0; simp [allDraining, h0] at hd
    have hd2 : allDraining s.adjust ps = true := by
      simpa [allDraining, next_draining s p h0, h0] using hd
    have ih := dirs_draining ps s.adjust hd2
    intro i hi
    simp only [runCalls, next_draining s p h0, List.mem_cons] at hi
    rcases hi with rfl | hi
    · exact adjust_dir s
    · rw [ih i hi, adjust_dir]

/-! ## Sampling calls -/

theorem deltaOf_range (s : SimpleSequenceWrapper) (p : position_t) :
    -2147483648 ≤ deltaOf s p ∧ deltaOf s p < 2147483648 := by
  unfold deltaOf toInt32; omega

/-- The divisor of lines 141-142 is the magnitude of the wrapped difference. -/
theorem toUInt32_stepsToGo (d : Int) (h1 : -2147483648 ≤ d) (h2 : d < 2147483648) :
    toUInt32 (stepsToGo d) = d.natAbs := by
  unfold toUInt32 stepsToGo toInt32; split_ifs <;> omega

theorem toUInt16_stepsToGo (d : Int) (h1 : -2147483648 ≤ d) (h2 : d < 2147483648) :
    toUInt16 (stepsToGo d) = d.natAbs % 65536 := by
  unfold toUInt16 stepsToGo toInt32; split_ifs <;> omega

/-- What a sampling call stores when the wrapped difference is zero. -/
theorem sample_zero (s : SimpleSequenceWrapper) (p : position_t) (h : deltaOf s p = 0) :
    s.sample p =
      { s with
        _sequence_callback := s._sequence_callback.call.2
        _step_instruction := ⟨DIR_NONE, s._seqeunce_interval_us⟩
        _step_count := 1
        _steps_to_go_abs := 0 } := by
  have h2 : toInt32 (s._sequence_callback.call.1 - p.current) = 0 := h
  simp [sample, h2]

/-- What a sampling call stores when the wrapped difference is not zero. -/
theorem sample_nonzero (s : SimpleSequenceWrapper) (p : position_t) (h : deltaOf s p ≠ 0) :
    s.sample p =
      { s with
        _sequence_callback := s._sequence_callback.call.2
        _step_instruction :=
          ⟨if deltaOf s p > 0 then DIR_FORWARD else DIR_BACKWARD,
           if s._steps_to_go_abs > stepsToGo (deltaOf s p)
           then s._seqeunce_interval_us / (deltaOf s p).natAbs
           else (s._seqeunce_interval_us / (deltaOf s p).natAbs + 1) % 4294967296⟩
        _step_count := (deltaOf s p).natAbs % 65536
        _step_adjustment_count :=
          if s._steps_to_go_abs > stepsToGo (deltaOf s p)
          then toInt16 (toInt16 (-(toInt16 (s._seqeunce_interval_us / (deltaOf s p).natAbs : Nat))) - 1)
          else toInt16 (toInt16 (s._seqeunce_interval_us / (deltaOf s p).natAbs : Nat) + 1)
        _steps_to_go_abs := stepsToGo (deltaOf s p) } := by
  have hr := deltaOf_range s p
  have e32 := toUInt32_stepsToGo _ hr.1 hr.2
  have e16 := toUInt16_stepsToGo _ hr.1 hr.2
  have h2 : toInt32 (s._sequence_callback.call.1 - p.current) = deltaOf s p := rfl
  have h3 : (if deltaOf s p > 0 then deltaOf s p else toInt32 (-deltaOf s p))
      = stepsToGo (deltaOf s p) := rfl
  simp only [sample, h2, h3, if_neg h, e32, e16]
  split_ifs <;> rfl

/-- The adjustment counter is a 16-bit value after the sampling part. -/
theorem sample_adj_range (s : SimpleSequenceWrapper) (p : position_t)
    (hlo : -32768 ≤ s._step_adjustment_count) (hhi : s._step_adjustment_count ≤ 32767) :
    -32768 ≤ (s.sample p)._step_adjustment_count ∧ (s.sample p)._step_adjustment_count ≤ 32767 := by
  by_cases h : deltaOf s p = 0
  · rw [sample_zero s p h]; exact ⟨hlo, hhi⟩
  · rw [sample_nonzero s p h]; simp only [toInt16]; split_ifs <;> omega

theorem adjust_count_lt (s : SimpleSequenceWrapper) : s.adjust._step_count < 65536 := by
  rw [adjust_count]; unfold toUInt16; omega

/-- The sampling part keeps every member within its C++ type. -/
theorem sample_WF (s : SimpleSequenceWrapper) (p : position_t) (h : WF s) : WF (s.sample p) := by
  obtain ⟨h1, h2, h3, h4, h5, h6, h7⟩ := h
  have hr := deltaOf_range s p
  by_cases hd : deltaOf s p = 0
  · rw [sample_zero s p hd]
    exact ⟨h1, h1, by simp, h4, h5, by simp, by simp⟩
  · have hq : s._seqeunce_interval_us / (deltaOf s p).natAbs < 4294967296 :=
      lt_of_le_of_lt (Nat.div_le_self _ _) h1
    rw [sample_nonzero s p hd]
    refine ⟨h1, ?_, ?_, ?_, ?_, ?_, ?_⟩
    · simp only; split_ifs <;> omega
    · simp only; omega
    · simp only [toInt16]; split_ifs <;> omega
    · simp only [toInt16]; split_ifs <;> omega
    · simp only [stepsToGo, toInt32]; split_ifs <;> omega
    · simp only [stepsToGo, toInt32]; split_ifs <;> omega

/-- The tail of `next` keeps every member within its C++ type. -/
theorem adjust_WF (s : SimpleSequenceWrapper) (h : WF s) : WF s.adjust := by
  obtain ⟨h1, h2, h3, h4, h5, h6, h7⟩ := h
  have ha := adjust_adj s h4 h5
  have hv := adjust_delay s h4 h5
  refine ⟨by rw [adjust_interval]; exact h1, ?_, adjust_count_lt s, ?_, ?_,
    by rw [adjust_abs]; exact h6, by rw [adjust_abs]; exact h7⟩
  · rw [hv]; unfold flipDelay toUInt32; split_ifs <;> omega
  · rw [ha]; split_ifs <;> omega
  · rw [ha]; split_ifs <;> omega

/-- A call of `next` keeps every member within its C++ type. -/
theorem next_WF (s : SimpleSequenceWrapper) (p : position_t) (h : WF s) : WF (s.next p).2 := by
  by_cases h0 : s._step_count = 0
  · rw [next_sampling s p h0]; exact adjust_WF _ (sample_WF s p h)
  · rw [next_draining s p h0]; exact adjust_WF _ h

/-- A constructed generator holds values of its C++ types, provided the
indeterminate initial delay is a 32-bit value. -/
theorem construct_WF (c : Callback) (interval : Nat) (ind : step_instruction_t)
    (h : ind.next < 4294967296) : WF (SimpleSequenceWrapper.construct c interval ind) :=
  ⟨Nat.mod_lt _ (by decide), h, by simp [construct], by simp [construct], by simp [construct],
    by simp [construct], by simp [construct]⟩

/-! ## The calls of one sampling interval -/

/-- A run of calls lies within one interval exactly when it starts with a
sampling call and is no longer than the number of steps that call serves. -/
theorem withinInterval_iff (s : SimpleSequenceWrapper) (p : position_t) (ps : List position_t) :
    withinInterval s (p :: ps) = true ↔
      s._step_count = 0 ∧ ps.length ≤ (s.sample p).adjust._step_count := by
  by_cases h0 : s._step_count = 0
  · simp [withinInterval, h0, next_sampling s p h0,
      allDraining_iff ps (s.sample p).adjust (adjust_count_lt _)]
  · simp [withinInterval, h0]

/-- A run of calls is exactly one interval when its length is one more than the
step counter left by the sampling call. -/
theorem isSamplingInterval_iff (s : SimpleSequenceWrapper) (p : position_t)
    (ps : List position_t) :
    isSamplingInterval s (p :: ps) = true ↔
      s._step_count = 0 ∧ ps.length = (s.sample p).adjust._step_count := by
  unfold isSamplingInterval
  rw [Bool.and_eq_true, withinInterval_iff]
  constructor
  · rintro ⟨⟨h0, hle⟩, hz⟩
    have hd := (allDraining_iff ps (s.sample p).adjust (adjust_count_lt _)).2 hle
    have hc := runCalls_count ps (s.sample p).adjust (adjust_count_lt _) hd
    simp only [runCalls, next_sampling s p h0, hc, beq_iff_eq] at hz
    exact ⟨h0, by omega⟩
  · rintro ⟨h0, hlen⟩
    have hd := (allDraining_iff ps (s.sample p).adjust (adjust_count_lt _)).2 (le_of_eq hlen)
    have hc := runCalls_count ps (s.sample p).adjust (adjust_count_lt _) hd
    refine ⟨⟨h0, le_of_eq hlen⟩, ?_⟩
    simp only [runCalls, next_sampling s p h0, hc, beq_iff_eq]
    omega

/-- The delays returned within one interval follow the closed form started
from the counter and delay that the sampling part stores. -/
theorem delaysOf_interval (s : SimpleSequenceWrapper) (p : position_t) (ps : List position_t)
    (r1 : -32768 ≤ (s.sample p)._step_adjustment_count)
    (r2 : (s.sample p)._step_adjustment_count ≤ 32767)
    (h : withinInterval s (p :: ps) = true) :
    delaysOf s (p :: ps) =
      nudgedDelays (s.sample p)._step_adjustment_count (s.sample p)._step_instruction.next
        (ps.length + 1) := by
  obtain ⟨h0, hle⟩ := (withinInterval_iff s p ps).1 h
  have hd := (allDraining_iff ps (s.sample p).adjust (adjust_count_lt _)).2 hle
  have ha := adjust_adj (s.sample p) r1 r2
  rw [delaysOf_cons, next_sampling s p h0,
    delaysOf_draining ps (s.sample p).adjust (by rw [ha]; split_ifs <;> omega)
      (by rw [ha]; split_ifs <;> omega) hd,
    nudgedDelays_succ, adjust_delay _ r1 r2, ha]

/-- The directions returned within one interval are the one the sampling part
stores. -/
theorem dirs_interval (s : SimpleSequenceWrapper) (p : position_t) (ps : List position_t)
    (h : withinInterval s (p :: ps) = true) :
    ∀ i ∈ (runCalls s (p :: ps)).1, i.dir = (s.sample p)._step_instruction.dir := by
  obtain ⟨h0, hle⟩ := (withinInterval_iff s p ps).1 h
  have hd := (allDraining_iff ps (s.sample p).adjust (adjust_count_lt _)).2 hle
  intro i hi
  simp only [runCalls, next_sampling s p h0, List.mem_cons] at hi
  rcases hi with rfl | hi
  · exact adjust_dir _
  · rw [dirs_draining ps _ hd i hi, adjust_dir]

/-! ## Facts about the closed form -/

theorem mem_nudgedDelays {a : Int} {v n d : Nat} (h : d ∈ nudgedDelays a v n) :
    d = v ∨ (a ≠ 0 ∧ d = flipDelay a v) := by
  unfold nudgedDelays at h
  split_ifs at h with ha
  · exact Or.inl (List.eq_of_mem_replicate h)
  · rcases List.mem_append.1 h with h | h
    · exact Or.inl (List.eq_of_mem_replicate h)
    · exact Or.inr ⟨ha, List.eq_of_mem_replicate h⟩

theorem transitions_replicate (w : Nat) : ∀ m : Nat, transitions (List.replicate m w) = 0
  | 0 => rfl
  | 1 => rfl
  | m + 2 => by
    have ih := transitions_replicate w (m + 1)
    simp only [List.replicate_succ] at ih ⊢
    simp [transitions, ih]

theorem transitions_two_runs (v w : Nat) (m : Nat) :
    ∀ k : Nat, transitions (List.replicate k v ++ List.replicate m w) ≤ 1
  | 0 => by simp [transitions_replicate]
  | 1 => by
    cases m with
    | zero => simp [transitions]
    | succ m =>
      have h := transitions_replicate w (m + 1)
      simp only [List.replicate_succ] at h
      simp only [List.replicate_succ, List.replicate_zero, List.cons_append, List.nil_append,
        transitions, h]
      split_ifs <;> omega
  | k + 2 => by
    have ih := transitions_two_runs v w m (k + 1)
    simp only [List.replicate_succ, List.cons_append] at ih ⊢
    simp only [transitions, if_true]
    omega

theorem transitions_nudgedDelays (a : Int) (v n : Nat) : transitions (nudgedDelays a v n) ≤ 1 := by
  unfold nudgedDelays
  split_ifs
  · simp [transitions_replicate]
  · exact transitions_two_runs _ _ _ _

theorem length_delaysOf : ∀ (ps : List position_t) (s : SimpleSequenceWrapper),
    (delaysOf s ps).length = ps.length
  | [], s => by simp [delaysOf, runCalls]
  | p :: ps, s => by rw [delaysOf_cons, List.length_cons, length_delaysOf ps, List.length_cons]

/-- The counter that the sampling part stores for a nonzero difference is a
16-bit value whatever the state was. -/
theorem sample_adj_range_nonzero (s : SimpleSequenceWrapper) (p : position_t)
    (h : deltaOf s p ≠ 0) :
    -32768 ≤ (s.sample p)._step_adjustment_count ∧ (s.sample p)._step_adjustment_count ≤ 32767 := by
  rw [sample_nonzero s p h]; simp only [toInt16]; split_ifs <;> omega

/-- In the regime `count ≤ 65535`, `base ≤ 32766` every delay of an interval
with nonzero difference is `base` or `base + 1`. -/
theorem delays_base_or_succ (s : SimpleSequenceWrapper) (p : position_t) (ps : List position_t)
    (h : withinInterval s (p :: ps) = true) (hd : deltaOf s p ≠ 0)
    (hb : s._seqeunce_interval_us / (deltaOf s p).natAbs ≤ 32766) :
    ∀ d ∈ delaysOf s (p :: ps),
      d = s._seqeunce_interval_us / (deltaOf s p).natAbs ∨
      d = s._seqeunce_interval_us / (deltaOf s p).natAbs + 1 := by
  obtain ⟨r1, r2⟩ := sample_adj_range_nonzero s p hd
  rw [delaysOf_interval s p ps r1 r2 h]
  intro d hmem
  have hm := mem_nudgedDelays hmem
  rw [sample_nonzero s p hd] at hm
  simp only at hm
  generalize s._seqeunce_interval_us / (deltaOf s p).natAbs = q at hb hm ⊢
  unfold flipDelay toUInt32 toInt16 at hm
  split_ifs at hm <;> omega

/-! ## Claims -/

/-- C1 (counterexample): a fresh generator with interval 10000 us whose source
returns 3 while `pos.current` starts at 0 serves an interval of three calls whose
delays are 3334, 3334, 3334 and sum to 10002, not to the interval 10000. -/
theorem interval_coverage_counterexample :
    isSamplingInterval (fresh (constSource 3) 10000) [⟨0, 3⟩, ⟨1, 3⟩, ⟨2, 3⟩] = true ∧
    delaysOf (fresh (constSource 3) 10000) [⟨0, 3⟩, ⟨1, 3⟩, ⟨2, 3⟩] = [3334, 3334, 3334] ∧
    (delaysOf (fresh (constSource 3) 10000) [⟨0, 3⟩, ⟨1, 3⟩, ⟨2, 3⟩]).sum ≠ 10000 := by
  decide

/-- C1 (amended): in a sampling interval with nonzero wrapped difference, with
`count = |delta| ≤ 65535` and `floor(interval / count) ≤ 32766`, the interval
consists of `count` calls and the sum of the returned delays differs from the
configured interval by at most `count` microseconds:
`interval - count < sum ≤ interval + count`. -/
theorem interval_delay_sum_within_count (s : SimpleSequenceWrapper) (p : position_t)
    (ps : List position_t)
    (hint : isSamplingInterval s (p :: ps) = true)
    (hd : deltaOf s p ≠ 0) (hc : (deltaOf s p).natAbs ≤ 65535)
    (hb : s._seqeunce_interval_us / (deltaOf s p).natAbs ≤ 32766) :
    (p :: ps).length = (deltaOf s p).natAbs ∧
    (delaysOf s (p :: ps)).sum ≤ s._seqeunce_interval_us + (deltaOf s p).natAbs ∧
    s._seqeunce_interval_us < (delaysOf s (p :: ps)).sum + (deltaOf s p).natAbs := by
  have hw : withinInterval s (p :: ps) = true := by
    unfold isSamplingInterval at hint
    exact ((Bool.and_eq_true _ _).mp hint).1
  obtain ⟨_, hlen⟩ := (isSamplingInterval_iff s p ps).1 hint
  have hcnt : (s.sample p).adjust._step_count = (deltaOf s p).natAbs - 1 := by
    rw [adjust_count, sample_nonzero s p hd]; unfold toUInt16; simp only; omega
  have hlen2 : (p :: ps).length = (deltaOf s p).natAbs := by
    rw [List.length_cons, hlen, hcnt]; omega
  have hmem := delays_base_or_succ s p ps hw hd hb
  have hup := List.sum_le_card_nsmul (delaysOf s (p :: ps))
    (s._seqeunce_interval_us / (deltaOf s p).natAbs + 1) (fun d hd => by
      rcases hmem d hd with h | h <;> omega)
  have hdn := List.card_nsmul_le_sum (delaysOf s (p :: ps))
    (s._seqeunce_interval_us / (deltaOf s p).natAbs) (fun d hd => by
      rcases hmem d hd with h | h <;> omega)
  rw [length_delaysOf, hlen2, smul_eq_mul] at hup hdn
  have hpos : 0 < (deltaOf s p).natAbs := by omega
  have h1 := Nat.div_mul_le_self s._seqeunce_interval_us (deltaOf s p).natAbs
  have h2 := Nat.lt_div_mul_add (a := s._seqeunce_interval_us) hpos
  refine ⟨hlen2, ?_, ?_⟩
  · rw [Nat.mul_add, Nat.mul_one, Nat.mul_comm] at hup
    omega
  · rw [Nat.mul_comm] at hdn
    omega

/-- C1 (witness): the amended statement at interval 10000 us, source 3,
`pos.current = 0`. -/
theorem interval_delay_sum_within_count_witness :
    (([⟨0, 3⟩, ⟨1, 3⟩, ⟨2, 3⟩] : List position_t).length
        = (deltaOf (fresh (constSource 3) 10000) ⟨0, 3⟩).natAbs) ∧
    (delaysOf (fresh (constSource 3) 10000) [⟨0, 3⟩, ⟨1, 3⟩, ⟨2, 3⟩]).sum
        ≤ (fresh (constSource 3) 10000)._seqeunce_interval_us
          + (deltaOf (fresh (constSource 3) 10000) ⟨0, 3⟩).natAbs ∧
    (fresh (constSource 3) 10000)._seqeunce_interval_us
        < (delaysOf (fresh (constSource 3) 10000) [⟨0, 3⟩, ⟨1, 3⟩, ⟨2, 3⟩]).sum
          + (deltaOf (fresh (constSource 3) 10000) ⟨0, 3⟩).natAbs :=
  interval_delay_sum_within_count (fresh (constSource 3) 10000) ⟨0, 3⟩ [⟨1, 3⟩, ⟨2, 3⟩]
    (by decide) (by decide) (by decide) (by decide)

/-- C2 (counterexample): after an interval that sampled target 0 at
`pos.current = 0`, the source returns 65537 while `pos.current` is still the
previous target 0; the wrapped distance is 65537, yet the interval consists of
a single call (the 16-bit step counter holds `65537 mod 65536 = 1`). -/
theorem step_count_counterexample :
    (((fresh (listSource [0, 65537]) 1000000).next ⟨0, 0⟩).2._step_count = 0 ∧
     sampledTarget ((fresh (listSource [0, 65537]) 1000000).next ⟨0, 0⟩).2 = 65537 ∧
     (toInt32 (65537 - 0)).natAbs = 65537) ∧
    isSamplingInterval ((fresh (listSource [0, 65537]) 1000000).next ⟨0, 0⟩).2 [⟨0, 65537⟩]
      = true := by
  decide

/-- C2 (amended): for a sampling call (entered with `_step_count = 0`) in which
`pos.current` equals the previously sampled target and the wrapped 32-bit
distance between the new and the previous target has magnitude at most 65536,
the calls served in the interval are exactly that magnitude many, and exactly
one when the distance is 0. -/
theorem step_count_up_to_65536 (s : SimpleSequenceWrapper) (p : position_t)
    (ps : List position_t) (prevTarget : Int)
    (h0 : s._step_count = 0) (hp : p.current = prevTarget)
    (hle : (toInt32 (sampledTarget s - prevTarget)).natAbs ≤ 65536) :
    (toInt32 (sampledTarget s - prevTarget) ≠ 0 →
      (isSamplingInterval s (p :: ps) = true ↔
        (p :: ps).length = (toInt32 (sampledTarget s - prevTarget)).natAbs)) ∧
    (toInt32 (sampledTarget s - prevTarget) = 0 →
      (isSamplingInterval s (p :: ps) = true ↔ (p :: ps).length = 1)) := by
  subst hp
  have hdef : toInt32 (sampledTarget s - p.current) = deltaOf s p := rfl
  rw [hdef] at hle ⊢
  rw [isSamplingInterval_iff, adjust_count]
  constructor
  · intro hd
    rw [sample_nonzero s p hd]
    unfold toUInt16
    simp only [h0, true_and, List.length_cons]
    omega
  · intro hd
    rw [sample_zero s p hd]
    unfold toUInt16
    simp only [h0, true_and, List.length_cons]
    omega

/-- C2 (witness): the amended statement for a fresh generator whose source
returns 3 at `pos.current = 0`: the interval consists of exactly 3 calls. -/
theorem step_count_up_to_65536_witness :
    (fresh (constSource 3) 10000)._step_count = 0 ∧
    (isSamplingInterval (fresh (constSource 3) 10000) [⟨0, 3⟩, ⟨1, 3⟩, ⟨2, 3⟩] = true ↔
      ([⟨0, 3⟩, ⟨1, 3⟩, ⟨2, 3⟩] : List position_t).length
        = (toInt32 (sampledTarget (fresh (constSource 3) 10000) - 0)).natAbs) :=
  ⟨rfl, (step_count_up_to_65536 (fresh (constSource 3) 10000) ⟨0, 3⟩ [⟨1, 3⟩, ⟨2, 3⟩] 0
    rfl rfl (by decide)).1 (by decide)⟩

/-- C3: within one sampling interval (a sampling call followed by calls that do
not pull a sample) any two returned delays differ by at most 1 microsecond. -/
theorem delay_smoothness (s : SimpleSequenceWrapper) (ps : List position_t)
    (hiv : s._seqeunce_interval_us < 4294967296)
    (h : withinInterval s ps = true) :
    ∀ d1 ∈ delaysOf s ps, ∀ d2 ∈ delaysOf s ps, d1 ≤ d2 + 1 ∧ d2 ≤ d1 + 1 := by
  cases ps with
  | nil => simp [withinInterval] at h
  | cons p ps =>
    obtain ⟨h0, hle⟩ := (withinInterval_iff s p ps).1 h
    cases ps with
    | nil =>
      intro d1 h1 d2 h2
      rw [delaysOf_cons] at h1 h2
      simp only [delaysOf, runCalls, List.map_nil, List.mem_singleton] at h1 h2
      omega
    | cons p2 ps =>
      rw [adjust_count] at hle
      by_cases hd : deltaOf s p = 0
      · exfalso
        rw [sample_zero s p hd] at hle
        unfold toUInt16 at hle
        simp only [List.length_cons] at hle
        omega
      · obtain ⟨r1, r2⟩ := sample_adj_range_nonzero s p hd
        have hn : 2 ≤ (deltaOf s p).natAbs := by
          rw [sample_nonzero s p hd] at hle
          unfold toUInt16 at hle
          simp only [List.length_cons] at hle
          omega
        have hq : s._seqeunce_interval_us / (deltaOf s p).natAbs ≤ 2147483647 := by
          have hdiv : s._seqeunce_interval_us / (deltaOf s p).natAbs
              ≤ s._seqeunce_interval_us / 2 := Nat.div_le_div_left hn (by omega)
          omega
        rw [delaysOf_interval s p (p2 :: ps) r1 r2 h]
        intro d1 h1 d2 h2
        have m1 := mem_nudgedDelays h1
        have m2 := mem_nudgedDelays h2
        rw [sample_nonzero s p hd] at m1 m2
        simp only at m1 m2
        generalize s._seqeunce_interval_us / (deltaOf s p).natAbs = q at hq m1 m2
        unfold flipDelay toUInt32 toInt16 at m1 m2
        split_ifs at m1 m2 <;> omega

/-- C3 (witness): interval 10 us, source 5, `pos.current = 0`: the five delays
of the interval are 3, 3, 2, 2, 2, and the delays 3 and 2 differ by at most 1. -/
theorem delay_smoothness_witness :
    (fresh (constSource 5) 10)._seqeunce_interval_us < 4294967296 ∧
    withinInterval (fresh (constSource 5) 10) [⟨0, 5⟩, ⟨1, 5⟩, ⟨2, 5⟩, ⟨3, 5⟩, ⟨4, 5⟩] = true ∧
    delaysOf (fresh (constSource 5) 10) [⟨0, 5⟩, ⟨1, 5⟩, ⟨2, 5⟩, ⟨3, 5⟩, ⟨4, 5⟩]
      = [3, 3, 2, 2, 2] ∧
    ((3 : Nat) ≤ 2 + 1 ∧ (2 : Nat) ≤ 3 + 1) :=
  ⟨by decide, by decide, by decide,
   delay_smoothness (fresh (constSource 5) 10) [⟨0, 5⟩, ⟨1, 5⟩, ⟨2, 5⟩, ⟨3, 5⟩, ⟨4, 5⟩]
    (by decide) (by decide) 3 (by decide) 2 (by decide)⟩

/-- C4: every instruction returned within one sampling interval (the sampling
call and all draining calls) has direction Forward iff the wrapped difference
computed by the sampling call is positive, Backward iff it is negative, and
None iff it is zero. -/
theorem direction_correctness (s : SimpleSequenceWrapper) (p : position_t)
    (ps : List position_t) (h : withinInterval s (p :: ps) = true) :
    ∀ i ∈ (runCalls s (p :: ps)).1,
      (i.dir = DIR_FORWARD ↔ deltaOf s p > 0) ∧
      (i.dir = DIR_BACKWARD ↔ deltaOf s p < 0) ∧
      (i.dir = DIR_NONE ↔ deltaOf s p = 0) := by
  intro i hi
  rw [dirs_interval s p ps h i hi]
  by_cases hd : deltaOf s p = 0
  · rw [sample_zero s p hd]
    simp [hd]
  · rw [sample_nonzero s p hd]
    by_cases hpos : deltaOf s p > 0
    · simp only [if_pos hpos]
      refine ⟨by simp [hpos], ?_, by simp [hd]⟩
      constructor
      · intro hc; cases hc
      · intro hc; omega
    · simp only [if_neg hpos]
      have hneg : deltaOf s p < 0 := by omega
      refine ⟨?_, by simp [hneg], by simp [hd]⟩
      constructor
      · intro hc; cases hc
      · intro hc; omega

/-- C4 (witness): two consecutive intervals of one generator, the first with
difference `+2` (target 2 from position 0), the second with difference `-3`
(target -1 from position 2): the instructions of the first are Forward, those
of the second Backward. -/
theorem direction_correctness_witness :
    withinInterval (fresh (listSource [2, -1]) 10000) [⟨0, 2⟩, ⟨1, 2⟩] = true ∧
    (runCalls (fresh (listSource [2, -1]) 10000) [⟨0, 2⟩, ⟨1, 2⟩]).1
      = [⟨DIR_FORWARD, 5001⟩, ⟨DIR_FORWARD, 5001⟩] ∧
    (((⟨DIR_FORWARD, 5001⟩ : step_instruction_t).dir = DIR_FORWARD ↔
        deltaOf (fresh (listSource [2, -1]) 10000) ⟨0, 2⟩ > 0) ∧
     ((⟨DIR_FORWARD, 5001⟩ : step_instruction_t).dir = DIR_BACKWARD ↔
        deltaOf (fresh (listSource [2, -1]) 10000) ⟨0, 2⟩ < 0) ∧
     ((⟨DIR_FORWARD, 5001⟩ : step_instruction_t).dir = DIR_NONE ↔
        deltaOf (fresh (listSource [2, -1]) 10000) ⟨0, 2⟩ = 0)) ∧
    dirsOf (fresh (listSource [2, -1]) 10000) [⟨0, 2⟩, ⟨1, 2⟩, ⟨2, -1⟩, ⟨1, -1⟩, ⟨0, -1⟩]
      = [DIR_FORWARD, DIR_FORWARD, DIR_BACKWARD, DIR_BACKWARD, DIR_BACKWARD] :=
  ⟨by decide, by decide,
   direction_correctness (fresh (listSource [2, -1]) 10000) ⟨0, 2⟩ [⟨1, 2⟩] (by decide)
     ⟨DIR_FORWARD, 5001⟩ (by decide),
   by decide⟩

/-- C5 (failing input): interval 9 us; the first interval samples target 3 at
`pos.current = 0` and is served in three Forward calls, which leave the
adjustment counter at 1; the same target 3 is then sampled again with
`pos.current = 3`.  The fourth call returns direction None with delay 8, not
the configured interval 9, because the stale counter reaches zero in that call
and takes one microsecond off the delay. -/
theorem zero_motion_stale_counter :
    (runCalls (fresh (listSource [3, 3]) 9) [⟨0, 3⟩, ⟨1, 3⟩, ⟨2, 3⟩]).2._step_count = 0 ∧
    (runCalls (fresh (listSource [3, 3]) 9) [⟨0, 3⟩, ⟨1, 3⟩, ⟨2, 3⟩]).2._step_adjustment_count = 1 ∧
    deltaOf (runCalls (fresh (listSource [3, 3]) 9) [⟨0, 3⟩, ⟨1, 3⟩, ⟨2, 3⟩]).2 ⟨3, 3⟩ = 0 ∧
    ((runCalls (fresh (listSource [3, 3]) 9) [⟨0, 3⟩, ⟨1, 3⟩, ⟨2, 3⟩]).2.next ⟨3, 3⟩).1
      = ⟨DIR_NONE, 8⟩ := by
  decide

/-- Unless the counter left by the previous interval is `1` or `-1`, a sampling
call with zero difference returns direction None with the full interval as
delay; in every case the next call pulls a new sample. -/
theorem zero_motion_unless_stale (s : SimpleSequenceWrapper) (p : position_t)
    (h0 : s._step_count = 0) (hd : deltaOf s p = 0)
    (hlo : -32768 ≤ s._step_adjustment_count) (hhi : s._step_adjustment_count ≤ 32767) :
    (s.next p).1.dir = DIR_NONE ∧
    (s.next p).2._step_count = 0 ∧
    (s._step_adjustment_count ≠ 1 → s._step_adjustment_count ≠ -1 →
      (s.next p).1.next = s._seqeunce_interval_us) := by
  have hs := sample_zero s p hd
  refine ⟨?_, ?_, ?_⟩
  · rw [next_sampling s p h0]; simp only [adjust_dir]; rw [hs]
  · rw [next_sampling s p h0]; simp only [adjust_count]; rw [hs]; rfl
  · intro n1 n2
    rw [next_sampling s p h0]
    simp only
    rw [adjust_delay _ (by rw [hs]; exact hlo) (by rw [hs]; exact hhi), hs]
    simp only
    rw [if_neg (by omega)]

/-- C6: the distance used by a sampling call is the difference
`sampled target - pos.current` reduced modulo `2^32` into the signed 32-bit
range: it lies in `[-2^31, 2^31)`, is congruent to the plain difference modulo
`2^32`, decides the returned direction by its sign, and (for magnitudes from 1
to 65536) its magnitude is the number of calls of the interval. -/
theorem wrap_tolerance (s : SimpleSequenceWrapper) (p : position_t)
    (h0 : s._step_count = 0) :
    (-2147483648 ≤ deltaOf s p ∧ deltaOf s p < 2147483648) ∧
    (deltaOf s p - (sampledTarget s - p.current)) % 4294967296 = 0 ∧
    (s.next p).1.dir =
      (if deltaOf s p > 0 then DIR_FORWARD
       else if deltaOf s p < 0 then DIR_BACKWARD else DIR_NONE) ∧
    (1 ≤ (deltaOf s p).natAbs → (deltaOf s p).natAbs ≤ 65536 →
      ∀ ps, (isSamplingInterval s (p :: ps) = true ↔
        (p :: ps).length = (deltaOf s p).natAbs)) := by
  refine ⟨deltaOf_range s p, ?_, ?_, ?_⟩
  · unfold deltaOf toInt32; omega
  · rw [next_sampling s p h0]
    simp only [adjust_dir]
    by_cases hd : deltaOf s p = 0
    · rw [sample_zero s p hd]; simp [hd]
    · rw [sample_nonzero s p hd]
      by_cases hpos : deltaOf s p > 0
      · simp [hpos]
      · have hneg : deltaOf s p < 0 := by omega
        simp [hpos, hneg]
  · intro h1 h2 ps
    have hd : deltaOf s p ≠ 0 := by omega
    rw [isSamplingInterval_iff, adjust_count, sample_nonzero s p hd]
    unfold toUInt16
    simp only [h0, true_and, List.length_cons]
    omega

/-- C6 (witness): with `pos.current = INT32_MAX - 1` and a source returning
`INT32_MIN + 2` the wrapped difference is `+4`, the returned direction is
Forward and the interval consists of exactly 4 calls. -/
theorem wrap_tolerance_witness :
    deltaOf (fresh (constSource (-2147483646)) 10000) ⟨2147483646, 0⟩ = 4 ∧
    ((fresh (constSource (-2147483646)) 10000).next ⟨2147483646, 0⟩).1.dir = DIR_FORWARD ∧
    (isSamplingInterval (fresh (constSource (-2147483646)) 10000)
        [⟨2147483646, 0⟩, ⟨2147483647, 0⟩, ⟨-2147483648, 0⟩, ⟨-2147483647, 0⟩] = true ↔
      ([⟨2147483646, 0⟩, ⟨2147483647, 0⟩, ⟨-2147483648, 0⟩, ⟨-2147483647, 0⟩] :
        List position_t).length = 4) :=
  ⟨by decide,
   (wrap_tolerance (fresh (constSource (-2147483646)) 10000) ⟨2147483646, 0⟩ rfl).2.2.1,
   (wrap_tolerance (fresh (constSource (-2147483646)) 10000) ⟨2147483646, 0⟩ rfl).2.2.2
     (by decide) (by decide) [⟨2147483647, 0⟩, ⟨-2147483648, 0⟩, ⟨-2147483647, 0⟩]⟩

/-- C7 (counterexample): constructing the generator with interval 0 does not
fail: it yields a generator that stores interval 0 and whose `next` answers,
here with direction None and delay 0. -/
theorem zero_interval_accepted :
    (SimpleSequenceWrapper.construct (constSource 5) 0 ⟨DIR_NONE, 0⟩)._seqeunce_interval_us = 0 ∧
    ((SimpleSequenceWrapper.construct (constSource 5) 0 ⟨DIR_NONE, 0⟩).next ⟨5, 0⟩).1
      = ⟨DIR_NONE, 0⟩ ∧
    ((SimpleSequenceWrapper.construct (constSource 5) 0 ⟨DIR_NONE, 0⟩).next ⟨2, 0⟩).1
      = ⟨DIR_FORWARD, 0⟩ := by
  decide

/-- C7 (amended): construction performs no validation and succeeds for every
interval, zero included: the generator stores the interval (as a 32-bit
value) and the source, starts with step counter, adjustment counter and
previous step count all 0, and its first call of `next` pulls a sample. -/
theorem construct_accepts_every_interval (c : Callback) (interval : Nat)
    (ind : step_instruction_t) (p : position_t) :
    (SimpleSequenceWrapper.construct c interval ind)._seqeunce_interval_us
      = interval % 4294967296 ∧
    (SimpleSequenceWrapper.construct c interval ind)._sequence_callback = c ∧
    (SimpleSequenceWrapper.construct c interval ind)._step_count = 0 ∧
    (SimpleSequenceWrapper.construct c interval ind)._step_adjustment_count = 0 ∧
    (SimpleSequenceWrapper.construct c interval ind)._steps_to_go_abs = 0 ∧
    ((SimpleSequenceWrapper.construct c interval ind).next p).2._sequence_callback.calls
      = c.calls + 1 := by
  refine ⟨rfl, rfl, rfl, rfl, rfl, ?_⟩
  rw [next_sampling _ p rfl, adjust_callback]
  by_cases hd : deltaOf (SimpleSequenceWrapper.construct c interval ind) p = 0
  · rw [sample_zero _ p hd]; rfl
  · rw [sample_nonzero _ p hd]; rfl

/-- The source is untouched by a run of draining calls. -/
theorem callback_draining : ∀ (ps : List position_t) (s : SimpleSequenceWrapper),
    allDraining s ps = true →
    (runCalls s ps).2._sequence_callback = s._sequence_callback
  | [], s, _ => by simp [runCalls]
  | p :: ps, s, hd => by
    have h0 : s._step_count ≠ 0 := by
      intro h0; simp [allDraining, h0] at hd
    have hd2 : allDraining s.adjust ps = true := by
      simpa [allDraining, next_draining s p h0, h0] using hd
    simp only [runCalls, next_draining s p h0, callback_draining ps s.adjust hd2,
      adjust_callback]

/-- The sampling part invokes the source exactly once. -/
theorem sample_callback (s : SimpleSequenceWrapper) (p : position_t) :
    (s.sample p)._sequence_callback = s._sequence_callback.call.2 := by
  by_cases hd : deltaOf s p = 0
  · rw [sample_zero s p hd]
  · rw [sample_nonzero s p hd]

/-- C8: in a sampling interval with nonzero wrapped difference, `count = |delta|`
and `base = floor(interval / count) ≤ 32766`, every returned delay is `base` or
`base + 1` microseconds and the sequence of returned delays has at most one
position at which consecutive delays differ.  (The bound `count ≤ 65535` of
the claim is not needed.) -/
theorem per_step_delay_values (s : SimpleSequenceWrapper) (p : position_t)
    (ps : List position_t)
    (h : withinInterval s (p :: ps) = true) (hd : deltaOf s p ≠ 0)
    (hb : s._seqeunce_interval_us / (deltaOf s p).natAbs ≤ 32766) :
    (∀ d ∈ delaysOf s (p :: ps),
      d = s._seqeunce_interval_us / (deltaOf s p).natAbs ∨
      d = s._seqeunce_interval_us / (deltaOf s p).natAbs + 1) ∧
    transitions (delaysOf s (p :: ps)) ≤ 1 := by
  refine ⟨delays_base_or_succ s p ps h hd hb, ?_⟩
  obtain ⟨r1, r2⟩ := sample_adj_range_nonzero s p hd
  rw [delaysOf_interval s p ps r1 r2 h]
  exact transitions_nudgedDelays _ _ _

/-- C8 (witness): interval 10000 us, count 3: the complete interval returns the
delays 3334, 3334, 3334; the delay 3334 is `base + 1` for `base = 3333`, and
there is at most one transition. -/
theorem per_step_delay_values_witness :
    isSamplingInterval (fresh (constSource 3) 10000) [⟨0, 3⟩, ⟨1, 3⟩, ⟨2, 3⟩] = true ∧
    (fresh (constSource 3) 10000)._seqeunce_interval_us
      / (deltaOf (fresh (constSource 3) 10000) ⟨0, 3⟩).natAbs = 3333 ∧
    (3334 = (fresh (constSource 3) 10000)._seqeunce_interval_us
            / (deltaOf (fresh (constSource 3) 10000) ⟨0, 3⟩).natAbs ∨
     3334 = (fresh (constSource 3) 10000)._seqeunce_interval_us
            / (deltaOf (fresh (constSource 3) 10000) ⟨0, 3⟩).natAbs + 1) ∧
    transitions (delaysOf (fresh (constSource 3) 10000) [⟨0, 3⟩, ⟨1, 3⟩, ⟨2, 3⟩]) ≤ 1 :=
  ⟨by decide, by decide,
   (per_step_delay_values (fresh (constSource 3) 10000) ⟨0, 3⟩ [⟨1, 3⟩, ⟨2, 3⟩]
    (by decide) (by decide) (by decide)).1 3334 (by decide),
   (per_step_delay_values (fresh (constSource 3) 10000) ⟨0, 3⟩ [⟨1, 3⟩, ⟨2, 3⟩]
    (by decide) (by decide) (by decide)).2⟩

/-- C9: a call of `next` invokes the sample source once when it is entered with
`_step_count = 0` and not at all otherwise (the source itself is unchanged);
over the calls of one sampling interval the source is invoked exactly once; and
the first call on a freshly constructed generator invokes it. -/
theorem sample_source_usage (s : SimpleSequenceWrapper) (p : position_t) :
    (s.next p).2._sequence_callback.calls
      = s._sequence_callback.calls + (if s._step_count = 0 then 1 else 0) ∧
    (s.next p).2._sequence_callback.samples = s._sequence_callback.samples ∧
    (∀ ps, withinInterval s (p :: ps) = true →
      (runCalls s (p :: ps)).2._sequence_callback.calls = s._sequence_callback.calls + 1) ∧
    (∀ c interval ind,
      ((SimpleSequenceWrapper.construct c interval ind).next p).2._sequence_callback.calls
        = c.calls + 1) := by
  refine ⟨?_, ?_, ?_, ?_⟩
  · by_cases h0 : s._step_count = 0
    · rw [next_sampling s p h0, adjust_callback, sample_callback, if_pos h0]; rfl
    · rw [next_draining s p h0, adjust_callback, if_neg h0]; rfl
  · by_cases h0 : s._step_count = 0
    · rw [next_sampling s p h0, adjust_callback, sample_callback]; rfl
    · rw [next_draining s p h0, adjust_callback]
  · intro ps h
    obtain ⟨h0, hle⟩ := (withinInterval_iff s p ps).1 h
    have hd := (allDraining_iff ps (s.sample p).adjust (adjust_count_lt _)).2 hle
    simp only [runCalls, next_sampling s p h0, callback_draining ps _ hd, adjust_callback,
      sample_callback]
    rfl
  · intro c interval ind
    rw [next_sampling _ p rfl, adjust_callback, sample_callback]; rfl

/-- C10 (failing input): a fresh generator with the interval 10000 us of the
demo (which is > 0) whose source returns 20000 at `pos.current = 0` returns
direction Forward with delay 0 on its first call, although 19999 steps of the
interval are still to go: the base delay `floor(10000 / 20000)` is 0, the
delay starts at `0 + 1` and the counter, started at 1, reaches zero in the
same call and takes the microsecond off again. -/
theorem zero_delay_produced :
    0 < (fresh (constSource 20000) 10000)._seqeunce_interval_us ∧
    ((fresh (constSource 20000) 10000).next ⟨0, 20000⟩).1 = ⟨DIR_FORWARD, 0⟩ ∧
    ((fresh (constSource 20000) 10000).next ⟨0, 20000⟩).2._step_count = 19999 := by
  decide

/-- Away from that region the delay is not zero: in a sampling interval with
nonzero wrapped difference whose base delay `floor(interval / |delta|)` is at
least 1 (that is, `|delta|` does not exceed the interval) and at most
`2^32 - 3`, every returned delay is nonzero. -/
theorem delay_nonzero_of_base_pos (s : SimpleSequenceWrapper) (p : position_t)
    (ps : List position_t)
    (h : withinInterval s (p :: ps) = true) (hd : deltaOf s p ≠ 0)
    (hb1 : 1 ≤ s._seqeunce_interval_us / (deltaOf s p).natAbs)
    (hb2 : s._seqeunce_interval_us / (deltaOf s p).natAbs + 2 < 4294967296) :
    ∀ d ∈ delaysOf s (p :: ps), d ≠ 0 := by
  obtain ⟨r1, r2⟩ := sample_adj_range_nonzero s p hd
  rw [delaysOf_interval s p ps r1 r2 h]
  intro d hmem
  have hm := mem_nudgedDelays hmem
  rw [sample_nonzero s p hd] at hm
  simp only at hm
  generalize s._seqeunce_interval_us / (deltaOf s p).natAbs = q at hb1 hb2 hm
  unfold flipDelay toUInt32 toInt16 at hm
  split_ifs at hm <;> omega

/-- Instance at interval 10000 us, source 3, `pos.current = 0`: base delay
3333, and the returned delay 3334 is not 0. -/
theorem delay_nonzero_of_base_pos_witness :
    withinInterval (fresh (constSource 3) 10000) [⟨0, 3⟩, ⟨1, 3⟩, ⟨2, 3⟩] = true ∧
    (3334 : Nat) ≠ 0 :=
  ⟨by decide,
   delay_nonzero_of_base_pos (fresh (constSource 3) 10000) ⟨0, 3⟩ [⟨1, 3⟩, ⟨2, 3⟩]
    (by decide) (by decide) (by decide) (by decide) 3334 (by decide)⟩

/-- A division by a nonzero divisor has its result. -/
theorem checkedDiv_of_ne_zero (a b : Nat) (h : b ≠ 0) : checkedDiv a b = some (a / b) := by
  simp [checkedDiv, h]

/-- The divisor of lines 141-142 is not zero once the difference is not zero. -/
theorem divisor_ne_zero (d : Int) (h1 : -2147483648 ≤ d) (h2 : d < 2147483648) (h0 : d ≠ 0) :
    toUInt32 (if d > 0 then d else toInt32 (-d)) ≠ 0 := by
  unfold toUInt32 toInt32; split_ifs <;> omega

/-- C11: no call of `next` divides by zero.  Every divisor of a division that
a call executes is nonzero, the call with checked divisions always has a
result and it is the result of `next`, and a call that finds a zero
difference (like a call that pulls no sample) executes no division at all. -/
theorem no_division_by_zero (s : SimpleSequenceWrapper) (p : position_t) :
    (∀ d ∈ divisorsOf s p, d ≠ 0) ∧
    nextChecked s p = some (s.next p) ∧
    (deltaOf s p = 0 → divisorsOf s p = []) ∧
    (s._step_count ≠ 0 → divisorsOf s p = []) ∧
    (s._step_count = 0 → deltaOf s p ≠ 0 → (divisorsOf s p).length = 2) := by
  have hr := deltaOf_range s p
  have hdef : toInt32 (s._sequence_callback.call.1 - p.current) = deltaOf s p := rfl
  refine ⟨?_, ?_, ?_, ?_, ?_⟩
  · intro d hd
    unfold divisorsOf at hd
    simp only [hdef] at hd
    by_cases h0 : s._step_count = 0
    · by_cases hz : deltaOf s p = 0
      · simp [h0, hz] at hd
      · simp only [if_pos h0, if_neg hz, List.mem_cons, List.mem_singleton, or_self,
          List.not_mem_nil, or_false] at hd
        rw [hd]
        exact divisor_ne_zero _ hr.1 hr.2 hz
    · simp [h0] at hd
  · unfold nextChecked
    by_cases h0 : s._step_count = 0
    · rw [if_pos h0, next_sampling s p h0]
      have hs : sampleChecked s p = some (s.sample p) := by
        unfold sampleChecked SimpleSequenceWrapper.sample
        simp only [hdef]
        by_cases hz : deltaOf s p = 0
        · simp [hz]
        · simp only [if_neg hz, checkedDiv_of_ne_zero _ _ (divisor_ne_zero _ hr.1 hr.2 hz)]
          split_ifs <;> rfl
      rw [hs]
    · rw [if_neg h0, next_draining s p h0]
  · intro hz
    unfold divisorsOf
    simp [hdef, hz]
  · intro h0
    unfold divisorsOf
    simp [h0]
  · intro h0 hz
    unfold divisorsOf
    simp [hdef, hz, h0]

/-- C12: for a freshly constructed generator with interval 10000 us whose first
sampled target equals `pos.current`, the first call of `next` returns direction
None with delay 10000 us, and the interval consists of that single call: the
step counter is 0 afterwards, so the second call pulls a new sample. -/
theorem zero_distance_scenario (c : Callback) (ind : step_instruction_t) (p : position_t)
    (hd : deltaOf (SimpleSequenceWrapper.construct c 10000 ind) p = 0) :
    ((SimpleSequenceWrapper.construct c 10000 ind).next p).1 = ⟨DIR_NONE, 10000⟩ ∧
    ((SimpleSequenceWrapper.construct c 10000 ind).next p).2._step_count = 0 ∧
    (∀ ps, isSamplingInterval (SimpleSequenceWrapper.construct c 10000 ind) (p :: ps) = true ↔
      ps = []) := by
  have h := zero_motion_unless_stale (SimpleSequenceWrapper.construct c 10000 ind) p rfl hd
    (by simp [construct]) (by simp [construct])
  obtain ⟨hdir, hcnt, hdel⟩ := h
  have hdel2 := hdel (by simp [construct]) (by simp [construct])
  refine ⟨?_, hcnt, ?_⟩
  · cases hx : ((SimpleSequenceWrapper.construct c 10000 ind).next p).1 with
    | mk d n =>
      rw [hx] at hdir hdel2
      simp only at hdir hdel2
      rw [hdir, hdel2]
      rfl
  · intro ps
    rw [isSamplingInterval_iff]
    rw [next_sampling _ p rfl] at hcnt
    simp only at hcnt
    rw [hcnt]
    constructor
    · rintro ⟨_, hl⟩
      exact List.length_eq_zero.1 hl
    · intro hl
      exact ⟨rfl, by rw [hl]; rfl⟩

/-- C12 (witness): interval 10000 us, the source returns 7 and `pos.current` is
7: the first call returns (None, 10000) and leaves the step counter at 0. -/
theorem zero_distance_scenario_witness :
    deltaOf (SimpleSequenceWrapper.construct (constSource 7) 10000 ⟨DIR_FORWARD, 1⟩) ⟨7, 7⟩ = 0 ∧
    ((SimpleSequenceWrapper.construct (constSource 7) 10000 ⟨DIR_FORWARD, 1⟩).next ⟨7, 7⟩).1
      = ⟨DIR_NONE, 10000⟩ ∧
    ((SimpleSequenceWrapper.construct (constSource 7) 10000 ⟨DIR_FORWARD, 1⟩).next
      ⟨7, 7⟩).2._step_count = 0 :=
  ⟨by decide,
   (zero_distance_scenario (constSource 7) ⟨DIR_FORWARD, 1⟩ ⟨7, 7⟩ (by decide)).1,
   (zero_distance_scenario (constSource 7) ⟨DIR_FORWARD, 1⟩ ⟨7, 7⟩ (by decide)).2.1⟩

/-- C13 (counterexample): interval `2^31` us, fresh generator (previous step
count 0), the source returns `INT32_MIN` at `pos.current = 0`.  The wrapped
difference is `-2^31`, so `count = 2^31`, `base = 1`, and the previous step count
0 is not greater than `count`; yet the counter is `-1` (not `+1`), the returned
delay is 1 (not 2) and the stored previous step count is `-2^31`, which a 32-bit
signed member cannot hold as `2^31`. -/
theorem counter_init_counterexample :
    deltaOf (fresh (constSource (-2147483648)) 2147483648) ⟨0, 0⟩ = -2147483648 ∧
    (fresh (constSource (-2147483648)) 2147483648)._seqeunce_interval_us
      / (deltaOf (fresh (constSource (-2147483648)) 2147483648) ⟨0, 0⟩).natAbs = 1 ∧
    ¬ ((fresh (constSource (-2147483648)) 2147483648)._steps_to_go_abs
      > ((deltaOf (fresh (constSource (-2147483648)) 2147483648) ⟨0, 0⟩).natAbs : Int)) ∧
    ((fresh (constSource (-2147483648)) 2147483648).next ⟨0, 0⟩).2._step_adjustment_count = -1 ∧
    ((fresh (constSource (-2147483648)) 2147483648).next ⟨0, 0⟩).1.next = 1 ∧
    ((fresh (constSource (-2147483648)) 2147483648).next ⟨0, 0⟩).2._steps_to_go_abs
      = -2147483648 := by
  decide

/-- C13 (amended): after a sampling call with wrapped difference `delta`
different from 0 and from `-2^31`, with `count = |delta|` and
`base = floor(interval / count)`, `1 ≤ base ≤ 32766`: if the previous interval's
step count is strictly greater than `count`, the adjustment counter is `-base`
and the returned delay is `base`; otherwise the counter is `+base` and the
returned delay is `base + 1`.  In both cases the stored previous step count is
`count` afterwards. -/
theorem counter_init (s : SimpleSequenceWrapper) (p : position_t)
    (h0 : s._step_count = 0) (hd : deltaOf s p ≠ 0) (hmin : deltaOf s p ≠ -2147483648)
    (hb1 : 1 ≤ s._seqeunce_interval_us / (deltaOf s p).natAbs)
    (hb2 : s._seqeunce_interval_us / (deltaOf s p).natAbs ≤ 32766) :
    (s._steps_to_go_abs > ((deltaOf s p).natAbs : Int) →
      (s.next p).2._step_adjustment_count
          = -((s._seqeunce_interval_us / (deltaOf s p).natAbs : Nat) : Int) ∧
      (s.next p).1.next = s._seqeunce_interval_us / (deltaOf s p).natAbs) ∧
    (¬ s._steps_to_go_abs > ((deltaOf s p).natAbs : Int) →
      (s.next p).2._step_adjustment_count
          = ((s._seqeunce_interval_us / (deltaOf s p).natAbs : Nat) : Int) ∧
      (s.next p).1.next = s._seqeunce_interval_us / (deltaOf s p).natAbs + 1) ∧
    (s.next p).2._steps_to_go_abs = ((deltaOf s p).natAbs : Int) := by
  have hr := deltaOf_range s p
  obtain ⟨r1, r2⟩ := sample_adj_range_nonzero s p hd
  have hsteps : stepsToGo (deltaOf s p) = ((deltaOf s p).natAbs : Int) := by
    unfold stepsToGo toInt32; split_ifs <;> omega
  have ha := adjust_adj (s.sample p) r1 r2
  have hv := adjust_delay (s.sample p) r1 r2
  rw [next_sampling s p h0]
  simp only [adjust_abs]
  rw [ha, hv, sample_nonzero s p hd]
  simp only [hsteps]
  generalize s._seqeunce_interval_us / (deltaOf s p).natAbs = q at hb1 hb2
  refine ⟨?_, ?_, trivial⟩
  · intro hgt
    simp only [if_pos hgt]
    unfold flipDelay toUInt32 toInt16
    constructor <;> split_ifs <;> omega
  · intro hle
    simp only [if_neg hle]
    unfold flipDelay toUInt32 toInt16
    constructor <;> split_ifs <;> omega

/-- C13 (witness): interval 10000 us, fresh generator (previous step count 0),
difference 3: `base = 3333`, the counter is `+3333`, the returned delay is 3334
and the stored previous step count is 3. -/
theorem counter_init_witness :
    ((fresh (constSource 3) 10000).next ⟨0, 3⟩).2._step_adjustment_count
        = (((fresh (constSource 3) 10000)._seqeunce_interval_us
            / (deltaOf (fresh (constSource 3) 10000) ⟨0, 3⟩).natAbs : Nat) : Int) ∧
    ((fresh (constSource 3) 10000).next ⟨0, 3⟩).1.next
        = (fresh (constSource 3) 10000)._seqeunce_interval_us
            / (deltaOf (fresh (constSource 3) 10000) ⟨0, 3⟩).natAbs + 1 ∧
    ((fresh (constSource 3) 10000).next ⟨0, 3⟩).2._steps_to_go_abs
        = ((deltaOf (fresh (constSource 3) 10000) ⟨0, 3⟩).natAbs : Int) :=
  ⟨((counter_init (fresh (constSource 3) 10000) ⟨0, 3⟩ rfl (by decide) (by decide)
      (by decide) (by decide)).2.1 (by decide)).1,
   ((counter_init (fresh (constSource 3) 10000) ⟨0, 3⟩ rfl (by decide) (by decide)
      (by decide) (by decide)).2.1 (by decide)).2,
   (counter_init (fresh (constSource 3) 10000) ⟨0, 3⟩ rfl (by decide) (by decide)
      (by decide) (by decide)).2.2⟩

/-! ## The invariant of reachable generators -/

/-- The tail of `next` keeps room for the pending change of the delay. -/
theorem adjust_room (s : SimpleSequenceWrapper)
    (hlo : -32768 ≤ s._step_adjustment_count) (hhi : s._step_adjustment_count ≤ 32767)
    (hdn : s._step_adjustment_count > 0 → 1 ≤ s._step_instruction.next)
    (hup : s._step_adjustment_count < 0 → s._step_instruction.next + 1 < 4294967296) :
    (s.adjust._step_adjustment_count > 0 → 1 ≤ s.adjust._step_instruction.next) ∧
    (s.adjust._step_adjustment_count < 0 →
      s.adjust._step_instruction.next + 1 < 4294967296) := by
  rw [adjust_adj s hlo hhi, adjust_delay s hlo hhi]
  constructor <;> intro h <;> split_ifs at h ⊢ <;> omega

/-- The tail of `next` keeps the delay a 32-bit value. -/
theorem adjust_delay_lt (s : SimpleSequenceWrapper)
    (hlo : -32768 ≤ s._step_adjustment_count) (hhi : s._step_adjustment_count ≤ 32767)
    (hlt : s._step_instruction.next < 4294967296) :
    s.adjust._step_instruction.next < 4294967296 := by
  rw [adjust_delay s hlo hhi]
  unfold flipDelay toUInt32
  split_ifs <;> omega

/-- The delay stored by the sampling part is a 32-bit value. -/
theorem sample_delay_lt (s : SimpleSequenceWrapper) (p : position_t)
    (h : s._seqeunce_interval_us < 4294967296) :
    (s.sample p)._step_instruction.next < 4294967296 := by
  by_cases hd : deltaOf s p = 0
  · rw [sample_zero s p hd]; exact h
  · have hq : s._seqeunce_interval_us / (deltaOf s p).natAbs < 4294967296 :=
      lt_of_le_of_lt (Nat.div_le_self _ _) h
    rw [sample_nonzero s p hd]
    simp only
    split_ifs <;> omega

/-- A constructed generator satisfies the invariant. -/
theorem Inv_construct (c : Callback) (interval : Nat) (ind : step_instruction_t) :
    Inv (SimpleSequenceWrapper.construct c interval ind) :=
  ⟨Nat.mod_lt _ (by decide), by simp [construct], by simp [construct], by simp [construct],
    fun h => absurd rfl h, fun h => absurd rfl h, fun h => absurd rfl h⟩

/-- Every call of `next` preserves the invariant. -/
theorem Inv_next (s : SimpleSequenceWrapper) (p : position_t) (h : Inv s) : Inv (s.next p).2 := by
  obtain ⟨h1, h2, h3, h4, hl, h5, h6⟩ := h
  by_cases h0 : s._step_count = 0
  · rw [next_sampling s p h0]
    simp only
    obtain ⟨r1, r2⟩ := sample_adj_range s p h3 h4
    have ha := adjust_adj (s.sample p) r1 r2
    have hiv : (s.sample p)._seqeunce_interval_us = s._seqeunce_interval_us := by
      by_cases hd : deltaOf s p = 0
      · rw [sample_zero s p hd]
      · rw [sample_nonzero s p hd]
    have hroom : (s.sample p).adjust._step_count ≠ 0 →
        ((s.sample p)._step_adjustment_count > 0 → 1 ≤ (s.sample p)._step_instruction.next) ∧
        ((s.sample p)._step_adjustment_count < 0 →
          (s.sample p)._step_instruction.next + 1 < 4294967296) := by
      intro hc
      rw [adjust_count] at hc
      by_cases hd : deltaOf s p = 0
      · exfalso
        rw [sample_zero s p hd] at hc
        exact hc (by simp [toUInt16])
      · have hn : 2 ≤ (deltaOf s p).natAbs := by
          rw [sample_nonzero s p hd] at hc
          unfold toUInt16 at hc
          simp only at hc
          omega
        have hq : s._seqeunce_interval_us / (deltaOf s p).natAbs ≤ 2147483647 := by
          have hdiv : s._seqeunce_interval_us / (deltaOf s p).natAbs
              ≤ s._seqeunce_interval_us / 2 := Nat.div_le_div_left hn (by omega)
          omega
        rw [sample_nonzero s p hd]
        simp only
        generalize s._seqeunce_interval_us / (deltaOf s p).natAbs = q at hq
        unfold toInt16
        constructor <;> intro hx <;> split_ifs at hx ⊢ <;> omega
    refine ⟨by rw [adjust_interval, hiv]; exact h1, adjust_count_lt _, ?_, ?_, ?_, ?_, ?_⟩
    · rw [ha]; split_ifs <;> omega
    · rw [ha]; split_ifs <;> omega
    · intro _
      exact adjust_delay_lt _ r1 r2 (sample_delay_lt s p h1)
    · intro hc
      exact (adjust_room _ r1 r2 (hroom hc).1 (hroom hc).2).1
    · intro hc
      exact (adjust_room _ r1 r2 (hroom hc).1 (hroom hc).2).2
  · rw [next_draining s p h0]
    simp only
    have ha := adjust_adj s h3 h4
    refine ⟨by rw [adjust_interval]; exact h1, adjust_count_lt _, ?_, ?_, ?_, ?_, ?_⟩
    · rw [ha]; split_ifs <;> omega
    · rw [ha]; split_ifs <;> omega
    · intro _
      exact adjust_delay_lt _ h3 h4 (hl h0)
    · intro _
      exact (adjust_room _ h3 h4 (h5 h0) (h6 h0)).1
    · intro _
      exact (adjust_room _ h3 h4 (h5 h0) (h6 h0)).2

/-- A run of calls preserves the invariant. -/
theorem Inv_runCalls : ∀ (ps : List position_t) (s : SimpleSequenceWrapper),
    Inv s → Inv (runCalls s ps).2
  | [], _, h => h
  | p :: ps, s, h => by
    simp only [runCalls]
    exact Inv_runCalls ps _ (Inv_next s p h)

/-- Every generator reached from a constructed one satisfies the invariant. -/
theorem Inv_reached (c : Callback) (interval : Nat) (ind : step_instruction_t)
    (ps : List position_t) : Inv (reached c interval ind ps) :=
  Inv_runCalls ps _ (Inv_construct c interval ind)

/-- C14: on a call of `next` that does not pull a sample, made on a generator
reached from a constructed one: a nonzero adjustment counter moves exactly one
unit toward zero; the stored delay changes on that call exactly when the
counter reaches zero, and then by exactly one microsecond (one less when the
counter was `+1`, one more when it was `-1`); a zero counter leaves counter and
delay unchanged.  Hence the delays returned within one sampling interval change
at most once. -/
theorem nudge_rule (c : Callback) (interval : Nat) (ind : step_instruction_t)
    (ps ps0 qs : List position_t) (p : position_t) (s : SimpleSequenceWrapper)
    (hs : s = reached c interval ind ps) (h0 : s._step_count ≠ 0) :
    (s._step_adjustment_count > 0 →
      (s.next p).2._step_adjustment_count = s._step_adjustment_count - 1) ∧
    (s._step_adjustment_count < 0 →
      (s.next p).2._step_adjustment_count = s._step_adjustment_count + 1) ∧
    (s._step_adjustment_count ≠ 0 →
      ((s.next p).2._step_instruction.next ≠ s._step_instruction.next ↔
        (s.next p).2._step_adjustment_count = 0)) ∧
    (s._step_adjustment_count = 1 →
      (s.next p).2._step_instruction.next + 1 = s._step_instruction.next) ∧
    (s._step_adjustment_count = -1 →
      (s.next p).2._step_instruction.next = s._step_instruction.next + 1) ∧
    (s._step_adjustment_count = 0 →
      (s.next p).2._step_adjustment_count = 0 ∧
      (s.next p).2._step_instruction.next = s._step_instruction.next) ∧
    (withinInterval (reached c interval ind ps0) qs = true →
      transitions (delaysOf (reached c interval ind ps0) qs) ≤ 1) := by
  have hinv : Inv s := hs ▸ Inv_reached c interval ind ps
  obtain ⟨_, _, h3, h4, hl, h5, h6⟩ := hinv
  have ha := adjust_adj s h3 h4
  have hv := adjust_delay s h3 h4
  have hlt := hl h0
  have hdn := h5 h0
  have hup := h6 h0
  rw [next_draining s p h0]
  simp only
  rw [ha, hv]
  unfold flipDelay toUInt32
  refine ⟨?_, ?_, ?_, ?_, ?_, ?_, ?_⟩
  · intro h; rw [if_pos h]
  · intro h; split_ifs <;> omega
  · intro h; constructor <;> intro hx <;> split_ifs at hx ⊢ <;> omega
  · intro h; split_ifs <;> omega
  · intro h; split_ifs <;> omega
  · intro h; constructor <;> split_ifs <;> omega
  · intro hw
    cases qs with
    | nil => simp [delaysOf, runCalls, transitions]
    | cons q qs =>
      have hi := Inv_reached c interval ind ps0
      obtain ⟨r1, r2⟩ := sample_adj_range (reached c interval ind ps0) q hi.adj_ge hi.adj_le
      rw [delaysOf_interval _ q qs r1 r2 hw]
      exact transitions_nudgedDelays _ _ _

/-- C14 (witness): interval 10 us, source 5; after two calls the generator has
3 steps left, counter 1 and delay 3; the third call (no sample pulled) brings
the counter to 0 and the delay to 2. -/
theorem nudge_rule_witness :
    (reached (constSource 5) 10 ⟨DIR_NONE, 0⟩ [⟨0, 5⟩, ⟨1, 5⟩])._step_count = 3 ∧
    (reached (constSource 5) 10 ⟨DIR_NONE, 0⟩ [⟨0, 5⟩, ⟨1, 5⟩])._step_adjustment_count = 1 ∧
    (reached (constSource 5) 10 ⟨DIR_NONE, 0⟩ [⟨0, 5⟩, ⟨1, 5⟩])._step_instruction.next = 3 ∧
    ((reached (constSource 5) 10 ⟨DIR_NONE, 0⟩ [⟨0, 5⟩, ⟨1, 5⟩]).next
        ⟨2, 5⟩).2._step_adjustment_count
      = (reached (constSource 5) 10 ⟨DIR_NONE, 0⟩ [⟨0, 5⟩, ⟨1, 5⟩])._step_adjustment_count - 1 ∧
    ((reached (constSource 5) 10 ⟨DIR_NONE, 0⟩ [⟨0, 5⟩, ⟨1, 5⟩]).next
        ⟨2, 5⟩).2._step_instruction.next + 1
      = (reached (constSource 5) 10 ⟨DIR_NONE, 0⟩ [⟨0, 5⟩, ⟨1, 5⟩])._step_instruction.next :=
  ⟨by decide, by decide, by decide,
   (nudge_rule (constSource 5) 10 ⟨DIR_NONE, 0⟩ [⟨0, 5⟩, ⟨1, 5⟩] [] [] ⟨2, 5⟩ _ rfl
      (by decide)).1 (by decide),
   (nudge_rule (constSource 5) 10 ⟨DIR_NONE, 0⟩ [⟨0, 5⟩, ⟨1, 5⟩] [] [] ⟨2, 5⟩ _ rfl
      (by decide)).2.2.2.1 (by decide)⟩

/-- C15: a call of `next` entered with `_step_count != 0` does not depend on the
position argument, does not invoke the source, decreases the step counter by
exactly 1 and leaves the interval, the stored direction and the previous step
count unchanged; and no call of `next` at all changes the interval. -/
theorem draining_calls_framed (s : SimpleSequenceWrapper) (p q : position_t)
    (h0 : s._step_count ≠ 0) (hlt : s._step_count < 65536) :
    s.next p = s.next q ∧
    (s.next p).2._sequence_callback = s._sequence_callback ∧
    (s.next p).2._step_count + 1 = s._step_count ∧
    (s.next p).2._seqeunce_interval_us = s._seqeunce_interval_us ∧
    (s.next p).2._step_instruction.dir = s._step_instruction.dir ∧
    (s.next p).1.dir = s._step_instruction.dir ∧
    (s.next p).2._steps_to_go_abs = s._steps_to_go_abs ∧
    (∀ (t : SimpleSequenceWrapper) (r : position_t),
      (t.next r).2._seqeunce_interval_us = t._seqeunce_interval_us) := by
  refine ⟨by rw [next_draining s p h0, next_draining s q h0], ?_, ?_, ?_, ?_, ?_, ?_, ?_⟩
  · rw [next_draining s p h0]; exact adjust_callback s
  · rw [next_draining s p h0]; simp only [adjust_count]; unfold toUInt16; omega
  · rw [next_draining s p h0]; exact adjust_interval s
  · rw [next_draining s p h0]; exact adjust_dir s
  · rw [next_draining s p h0]; exact adjust_dir s
  · rw [next_draining s p h0]; exact adjust_abs s
  · intro t r
    by_cases ht : t._step_count = 0
    · rw [next_sampling t r ht]
      simp only [adjust_interval]
      by_cases hd : deltaOf t r = 0
      · rw [sample_zero t r hd]
      · rw [sample_nonzero t r hd]
    · rw [next_draining t r ht]; exact adjust_interval t

/-- C15 (witness): interval 10000 us, source 3; after the first call 2 steps
remain, and the second call gives the same result for two different positions
and leaves 1 step. -/
theorem draining_calls_framed_witness :
    (reached (constSource 3) 10000 ⟨DIR_NONE, 0⟩ [⟨0, 3⟩])._step_count = 2 ∧
    (reached (constSource 3) 10000 ⟨DIR_NONE, 0⟩ [⟨0, 3⟩]).next ⟨1, 3⟩
      = (reached (constSource 3) 10000 ⟨DIR_NONE, 0⟩ [⟨0, 3⟩]).next ⟨-500, 77⟩ ∧
    ((reached (constSource 3) 10000 ⟨DIR_NONE, 0⟩ [⟨0, 3⟩]).next ⟨1, 3⟩).2._step_count + 1
      = (reached (constSource 3) 10000 ⟨DIR_NONE, 0⟩ [⟨0, 3⟩])._step_count :=
  ⟨by decide,
   (draining_calls_framed (reached (constSource 3) 10000 ⟨DIR_NONE, 0⟩ [⟨0, 3⟩])
      ⟨1, 3⟩ ⟨-500, 77⟩ (by decide) (by decide)).1,
   (draining_calls_framed (reached (constSource 3) 10000 ⟨DIR_NONE, 0⟩ [⟨0, 3⟩])
      ⟨1, 3⟩ ⟨-500, 77⟩ (by decide) (by decide)).2.2.1⟩

/-- Sum of the closed form: the delays before the change and those after it. -/
theorem sum_nudgedDelays (a : Int) (v n : Nat) (ha : a ≠ 0) :
    (nudgedDelays a v n).sum
      = min n (a.natAbs - 1) * v + (n - (a.natAbs - 1)) * flipDelay a v := by
  simp [nudgedDelays, ha, List.sum_replicate]

/-- Arithmetic of a run of `base + 1` followed by a run of `base`. -/
theorem sum_up_then_down (n b : Nat) : min n b * (b + 1) + (n - b) * b = n * b + min n b := by
  rcases Nat.le_total n b with h | h
  · rw [Nat.min_eq_left h, Nat.sub_eq_zero_of_le h]; ring
  · obtain ⟨k, rfl⟩ := Nat.exists_eq_add_of_le h
    rw [Nat.min_eq_right h, Nat.add_sub_cancel_left]; ring

/-- Arithmetic of a run of `base` followed by a run of `base + 1`. -/
theorem sum_down_then_up (n b : Nat) : min n b * b + (n - b) * (b + 1) = n * b + (n - b) := by
  rcases Nat.le_total n b with h | h
  · rw [Nat.min_eq_left h, Nat.sub_eq_zero_of_le h]; ring
  · obtain ⟨k, rfl⟩ := Nat.exists_eq_add_of_le h
    rw [Nat.min_eq_right h, Nat.add_sub_cancel_left]; ring

/-- C16: in a sampling interval with nonzero wrapped difference,
`count = |delta| ≤ 65535` and `base = floor(interval / count) ≤ 32766`, the sum of
the delays returned over the interval is `count * base + min(count, base)` when
the previous interval's step count is at most `count`, and
`count * base + max(0, count - base)` (truncated subtraction) when it is greater;
so the sum equals the configured interval exactly when `interval mod count` is
`min(count, base)`, respectively `max(0, count - base)`. -/
theorem interval_total_delay (s : SimpleSequenceWrapper) (p : position_t)
    (ps : List position_t)
    (hint : isSamplingInterval s (p :: ps) = true)
    (hd : deltaOf s p ≠ 0) (hc : (deltaOf s p).natAbs ≤ 65535)
    (hb : s._seqeunce_interval_us / (deltaOf s p).natAbs ≤ 32766) :
    (s._steps_to_go_abs ≤ ((deltaOf s p).natAbs : Int) →
      (delaysOf s (p :: ps)).sum
        = (deltaOf s p).natAbs * (s._seqeunce_interval_us / (deltaOf s p).natAbs)
          + min (deltaOf s p).natAbs (s._seqeunce_interval_us / (deltaOf s p).natAbs) ∧
      ((delaysOf s (p :: ps)).sum = s._seqeunce_interval_us ↔
        s._seqeunce_interval_us % (deltaOf s p).natAbs
          = min (deltaOf s p).natAbs (s._seqeunce_interval_us / (deltaOf s p).natAbs))) ∧
    (s._steps_to_go_abs > ((deltaOf s p).natAbs : Int) →
      (delaysOf s (p :: ps)).sum
        = (deltaOf s p).natAbs * (s._seqeunce_interval_us / (deltaOf s p).natAbs)
          + ((deltaOf s p).natAbs - s._seqeunce_interval_us / (deltaOf s p).natAbs) ∧
      ((delaysOf s (p :: ps)).sum = s._seqeunce_interval_us ↔
        s._seqeunce_interval_us % (deltaOf s p).natAbs
          = (deltaOf s p).natAbs - s._seqeunce_interval_us / (deltaOf s p).natAbs)) := by
  have hw : withinInterval s (p :: ps) = true := by
    unfold isSamplingInterval at hint
    exact ((Bool.and_eq_true _ _).mp hint).1
  obtain ⟨_, hlen⟩ := (isSamplingInterval_iff s p ps).1 hint
  have hcnt : (s.sample p).adjust._step_count = (deltaOf s p).natAbs - 1 := by
    rw [adjust_count, sample_nonzero s p hd]; unfold toUInt16; simp only; omega
  have hlen2 : ps.length + 1 = (deltaOf s p).natAbs := by
    rw [hlen, hcnt]; omega
  have hr := deltaOf_range s p
  have hsteps : stepsToGo (deltaOf s p) = ((deltaOf s p).natAbs : Int) := by
    unfold stepsToGo toInt32; split_ifs <;> omega
  obtain ⟨r1, r2⟩ := sample_adj_range_nonzero s p hd
  have hdm := Nat.div_add_mod s._seqeunce_interval_us (deltaOf s p).natAbs
  rw [delaysOf_interval s p ps r1 r2 hw, hlen2, sample_nonzero s p hd]
  simp only [hsteps]
  generalize s._seqeunce_interval_us / (deltaOf s p).natAbs = q at hb hdm
  generalize (deltaOf s p).natAbs = n at hc hdm
  constructor
  · intro hle
    have hng : ¬ s._steps_to_go_abs > (n : Int) := by omega
    simp only [if_neg hng]
    have ha : toInt16 (toInt16 (q : Int) + 1) = (q : Int) + 1 := by unfold toInt16; omega
    have hv : (q + 1) % 4294967296 = q + 1 := by omega
    have hf : flipDelay ((q : Int) + 1) (q + 1) = q := by
      unfold flipDelay toUInt32; split_ifs <;> omega
    have hna : ((q : Int) + 1).natAbs - 1 = q := by omega
    rw [ha, hv, sum_nudgedDelays _ _ _ (by omega), hf, hna, sum_up_then_down]
    refine ⟨rfl, ?_⟩
    constructor <;> intro h <;> omega
  · intro hgt
    simp only [if_pos hgt]
    have ha : toInt16 (toInt16 (-(toInt16 (q : Int))) - 1) = -(q : Int) - 1 := by
      unfold toInt16; omega
    have hf : flipDelay (-(q : Int) - 1) q = q + 1 := by
      unfold flipDelay toUInt32; split_ifs <;> omega
    have hna : (-(q : Int) - 1).natAbs - 1 = q := by omega
    rw [ha, sum_nudgedDelays _ _ _ (by omega), hf, hna, sum_down_then_up]
    refine ⟨rfl, ?_⟩
    constructor <;> intro h <;> omega

/-- C16 (witness): interval 10000 us, fresh generator (previous step count 0),
difference 3: the total is `3 * 3333 + min(3, 3333) = 10002`. -/
theorem interval_total_delay_witness :
    isSamplingInterval (fresh (constSource 3) 10000) [⟨0, 3⟩, ⟨1, 3⟩, ⟨2, 3⟩] = true ∧
    (delaysOf (fresh (constSource 3) 10000) [⟨0, 3⟩, ⟨1, 3⟩, ⟨2, 3⟩]).sum
      = (deltaOf (fresh (constSource 3) 10000) ⟨0, 3⟩).natAbs
          * ((fresh (constSource 3) 10000)._seqeunce_interval_us
              / (deltaOf (fresh (constSource 3) 10000) ⟨0, 3⟩).natAbs)
        + min (deltaOf (fresh (constSource 3) 10000) ⟨0, 3⟩).natAbs
            ((fresh (constSource 3) 10000)._seqeunce_interval_us
              / (deltaOf (fresh (constSource 3) 10000) ⟨0, 3⟩).natAbs) ∧
    (deltaOf (fresh (constSource 3) 10000) ⟨0, 3⟩).natAbs
          * ((fresh (constSource 3) 10000)._seqeunce_interval_us
              / (deltaOf (fresh (constSource 3) 10000) ⟨0, 3⟩).natAbs)
        + min (deltaOf (fresh (constSource 3) 10000) ⟨0, 3⟩).natAbs
            ((fresh (constSource 3) 10000)._seqeunce_interval_us
              / (deltaOf (fresh (constSource 3) 10000) ⟨0, 3⟩).natAbs) = 10002 :=
  ⟨by decide,
   ((interval_total_delay (fresh (constSource 3) 10000) ⟨0, 3⟩ [⟨1, 3⟩, ⟨2, 3⟩]
      (by decide) (by decide) (by decide) (by decide)).1 (by decide)).1,
   by decide⟩

/-- C17: for a sampling call with nonzero wrapped difference of magnitude `n`,
the number of calls served before the next sample is pulled is
`((n - 1) mod 65536) + 1`, because the step counter is an unsigned 16-bit
member; this number is `n` exactly when `n ≤ 65536`.  (The bound `n < 2^31` of
the claim is not needed.) -/
theorem step_counter_truncation (s : SimpleSequenceWrapper) (p : position_t)
    (ps : List position_t) (h0 : s._step_count = 0) (hd : deltaOf s p ≠ 0) :
    (isSamplingInterval s (p :: ps) = true ↔
      (p :: ps).length = ((deltaOf s p).natAbs - 1) % 65536 + 1) ∧
    (((deltaOf s p).natAbs - 1) % 65536 + 1 = (deltaOf s p).natAbs ↔
      (deltaOf s p).natAbs ≤ 65536) := by
  constructor
  · rw [isSamplingInterval_iff, adjust_count, sample_nonzero s p hd]
    unfold toUInt16
    simp only [h0, true_and, List.length_cons]
    omega
  · omega

/-- C17 (witness): with difference 65537 the step counter holds 1 and the
interval is a single call, where `((65537 - 1) mod 65536) + 1 = 1`. -/
theorem step_counter_truncation_witness :
    (deltaOf (fresh (constSource 65537) 1000000) ⟨0, 0⟩).natAbs = 65537 ∧
    (isSamplingInterval (fresh (constSource 65537) 1000000) [⟨0, 0⟩] = true ↔
      ([⟨0, 0⟩] : List position_t).length
        = ((deltaOf (fresh (constSource 65537) 1000000) ⟨0, 0⟩).natAbs - 1) % 65536 + 1) ∧
    ((deltaOf (fresh (constSource 65537) 1000000) ⟨0, 0⟩).natAbs - 1) % 65536 + 1 = 1 :=
  ⟨by decide,
   (step_counter_truncation (fresh (constSource 65537) 1000000) ⟨0, 0⟩ [] rfl (by decide)).1,
   by decide⟩

end StepGen
